import Mathlib

/-!
# A shallow embedding of the goledger transport and codec core

This file embeds, in Lean, the parts of the `bakingbacon/goledger` Go
repository that its specification talks about: the Ledger APDU framing layer
(`apdu.go`: `wrapCommandAPDU`, `unwrapResponseAPDU`, `checkFailure`), the
checksummed base-58 codec (`crypto.go`: `encode`, `decode`, `b58decode`,
`B58cencode`, `B58cdecode`), the BIP-32 path codec (`encodeBipPath`,
`DecodeBipPath`), the Tezos prefix table (`tezos-crypto.go`) and the
channel-mode discipline of `SignBytes` (`ledger-app-tezos.go`).

Conventions of the embedding:
* Go byte slices and Go strings that are used as byte strings are `List Nat`
  (every element is intended to be `< 256`; hypotheses state this bound where
  a theorem needs it).
* Go `int` values that can go negative (packet sizes, offsets, block sizes)
  are `Int`.
* Fallible Go code returns `Except GoErr α`.  Go runtime panics (index out of
  range, slice bounds out of range) are modelled as the explicit error value
  `GoErr.panic` so that every function is total.
* Go loops are embedded as fuel recursion.  The fuel chosen in each embedding
  is provably sufficient (the `GoErr.fuel` branch is dead for the executions
  studied here); lemmas below discharge the fuel bound wherever a theorem
  depends on it.
-/

/-- Error type for the embedded Go code.  `msg` is `errors.New`,
`unknownStatus` is the `fmt.Errorf("Unknown status 0x%02x", code)` branch of
`checkFailure`, `moreData` is the `ErrMoreData` sentinel from `apdu.go`,
`panic` models a Go runtime panic, and `fuel` marks exhausted loop fuel
(proved unreachable where a theorem relies on a loop's result). -/
inductive GoErr where
  | msg (s : String)
  | unknownStatus (code : Nat)
  | moreData
  | panic (s : String)
  | fuel
  deriving DecidableEq, Repr

/-- Decidable equality for `Except` results, used by `decide` on concrete
evaluations of the embedded functions. -/
instance {e a : Type} [DecidableEq e] [DecidableEq a] : DecidableEq (Except e a) := fun x y =>
  match x, y with
  | .ok u, .ok v =>
      if h : u = v then .isTrue (congrArg Except.ok h)
      else .isFalse fun hh => h (Except.ok.inj hh)
  | .error u, .error v =>
      if h : u = v then .isTrue (congrArg Except.error h)
      else .isFalse fun hh => h (Except.error.inj hh)
  | .ok _, .error _ => .isFalse fun hh => Except.noConfusion hh
  | .error _, .ok _ => .isFalse fun hh => Except.noConfusion hh

/-- Go slice expression `l[lo:hi]`: panics unless `0 ≤ lo ≤ hi ≤ len l`. -/
def goSlice (l : List Nat) (lo hi : Int) : Except GoErr (List Nat) :=
  if 0 ≤ lo ∧ lo ≤ hi ∧ hi ≤ (l.length : Int) then
    .ok ((l.drop lo.toNat).take (hi - lo).toNat)
  else
    .error (.panic "slice bounds out of range")

/-- Go index expression `l[i]`: panics unless `0 ≤ i < len l`. -/
def goIndex (l : List Nat) (i : Int) : Except GoErr Nat :=
  if 0 ≤ i ∧ i < (l.length : Int) then
    .ok (l.getD i.toNat 0)
  else
    .error (.panic "index out of range")

/-- `binary.BigEndian.PutUint16` into a fresh 2-byte buffer; the Go call sites
first truncate the argument to `uint16`, which is the `% 65536` here. -/
def putUint16 (n : Nat) : List Nat :=
  [n % 65536 / 256, n % 256]

/-- `binary.BigEndian.Uint16` of a 2-byte slice (bytes are `< 256` in Go, so
the bit-or of the shifted bytes is ordinary arithmetic). -/
def readUint16 (l : List Nat) : Nat :=
  256 * l.getD 0 0 + l.getD 1 0

/-- `checkFailure` from `apdu.go`.  A `none` result is Go's `nil` error
(success).  The Go `switch` is mirrored branch by branch; note that in Go the
`case 0x6a84:` arm has an empty body and does *not* fall through to the
`case 0x6a85:` arm, so status `0x6a84` leaves the `switch` and reaches the
final `return nil`. -/
def checkFailure (code : Nat) : Option GoErr :=
  if code ≠ 0x9000 ∧ code &&& 0xFF00 ≠ 0x6100 then
    if code = 0x6484 then some (.msg "Are you using the correct targetId?")
    else if code = 0x6982 then
      some (.msg "Have you uninstalled the existing CA with resetCustomCA first?")
    else if code = 0x6985 then some (.msg "Operation denied by the user")
    else if code = 0x6a80 then some (.msg "Level is below safety watermark")
    else if code = 0x6a84 then none -- empty case body in the Go switch: no fallthrough
    else if code = 0x6a85 then some (.msg "Not enough space?")
    else if code = 0x6a83 then
      some (.msg "Maybe this app requires a library to be installed first?")
    else if code = 0x6b00 then some (.msg "Incorrect parameters received P1/P2")
    else if code = 0x6c00 then some (.msg "Wrong length")
    else if code = 0x6c66 then some (.msg "Operation not allowed")
    else if code = 0x6d00 then some (.msg "Unsupported Instruction")
    else if code = 0x6e00 then
      some (.msg "Unexpected state of device: verify that the right application is opened?")
    else if code = 0x6f00 then some (.msg "Internal technical problem")
    else if code = 0x917e then some (.msg "Length of command string invalid")
    else if code = 0x9405 then some (.msg "Parse error")
    else some (.unknownStatus code)
  else
    none

/-- The continuation-packet loop of `wrapCommandAPDU` (`for offset != len(command)`).
One fuel unit per emitted packet; `wrapCommandAPDU` passes `len(command) + 1`
fuel, which is sufficient because every reachable iteration consumes at least
one command byte. -/
def wrapLoop (channel command : List Nat) (packetSize : Int) :
    Nat → Nat → Int → List Nat → Except GoErr (List Nat)
  | 0, _, _, _ => .error .fuel
  | fuel + 1, sequenceIdx, offset, result =>
    if offset = (command.length : Int) then .ok result
    else
      let result := result ++ channel ++ [5] ++ putUint16 sequenceIdx
      let blockSize : Int :=
        if (command.length : Int) - offset > packetSize - 3 - 2 then packetSize - 3 - 2
        else (command.length : Int) - offset
      match goSlice command offset (offset + blockSize) with
      | .error e => .error e
      | .ok chunk =>
          wrapLoop channel command packetSize fuel (sequenceIdx + 1) (offset + blockSize)
            (result ++ chunk)

/-- The zero-padding loop at the end of `wrapCommandAPDU`
(`for len(result) % packetSize != 0 { append 0 }`).  `packetSize.toNat` fuel
is sufficient: at most `packetSize - 1` zero bytes are ever appended. -/
def padLoop (packetSize : Int) : Nat → List Nat → List Nat
  | 0, result => result -- dead branch: the loop needs at most packetSize - 1 steps
  | fuel + 1, result =>
    if (result.length : Int) % packetSize = 0 then result
    else padLoop packetSize fuel (result ++ [0])

/-- `wrapCommandAPDU` from `apdu.go`: header packet
(`channel ‖ tag 5 ‖ seq 0 ‖ len`), first chunk of at most `packetSize - 7`
bytes, continuation packets of at most `packetSize - 5` bytes, then zero
padding to a multiple of `packetSize`. -/
def wrapCommandAPDU (channel command : List Nat) (packetSize : Int) :
    Except GoErr (List Nat) :=
  if packetSize < 3 then .error (.msg "Can\x27t handle less than 3 bytes")
  else
    let result := channel ++ [5] ++ putUint16 0 ++ putUint16 command.length
    let blockSize : Int :=
      if (command.length : Int) > packetSize - 5 - 2 then packetSize - 5 - 2
      else (command.length : Int)
    match goSlice command 0 (0 + blockSize) with
    | .error e => .error e
    | .ok chunk =>
      match wrapLoop channel command packetSize (command.length + 1) 1 (0 + blockSize)
          (result ++ chunk) with
      | .error e => .error e
      | .ok res => .ok (padLoop packetSize packetSize.toNat res)

/-- The reassembly loop of `unwrapResponseAPDU` (`for len(result) < responseLength`).
Each reachable iteration either fails or appends at least one byte to
`result`, so the `responseLength + 1` fuel passed by `unwrapResponseAPDU` is
sufficient. -/
def unwrapLoop (channel data : List Nat) (packetSize responseLength : Int) :
    Nat → Nat → Int → List Nat → Except GoErr (List Nat)
  | 0, _, _, _ => .error .fuel
  | fuel + 1, sequenceIdx, offset, result =>
    if (result.length : Int) < responseLength then
      let sequenceIdx := sequenceIdx + 1
      if offset = (data.length : Int) then .error (.msg "No data")
      else
        match goSlice data offset (offset + 2) with
        | .error e => .error e
        | .ok packedChan =>
          if packedChan ≠ channel then .error (.msg "Invalid channel")
          else
            match goIndex data (offset + 2) with
            | .error e => .error e
            | .ok tagByte =>
              if [tagByte] ≠ [5] then .error (.msg "Invalid tag")
              else
                match goSlice data (offset + 3) (offset + 5) with
                | .error e => .error e
                | .ok seqBytes =>
                  if readUint16 seqBytes ≠ sequenceIdx then .error (.msg "Invalid sequence")
                  else
                    let blockSize : Int :=
                      if responseLength - (result.length : Int) > packetSize - 3 - 2 then
                        packetSize - 3 - 2
                      else responseLength - (result.length : Int)
                    match goSlice data (offset + 5) (offset + 5 + blockSize) with
                    | .error e => .error e
                    | .ok chunk =>
                      unwrapLoop channel data packetSize responseLength fuel sequenceIdx
                        (offset + 5 + blockSize) (result ++ chunk)
    else .ok result

/-- `unwrapResponseAPDU` from `apdu.go`: validates the first packet's header
(channel, tag, sequence 0), reads the declared total length, returns
`ErrMoreData` when fewer than `7 + responseLength` bytes have accumulated,
reassembles the chunks, and finally interprets the trailing 2-byte status
word with `checkFailure`, stripping it from the returned payload. -/
def unwrapResponseAPDU (channel data : List Nat) (packetSize : Int) :
    Except GoErr (List Nat) :=
  if data.length = 0 ∨ (data.length : Int) < 5 + 2 + 5 then .error (.msg "No data")
  else
    match goSlice data 0 2 with
    | .error e => .error e
    | .ok packedChannel =>
      if packedChannel ≠ channel then .error (.msg "Invalid channel")
      else
        match goIndex data 2 with
        | .error e => .error e
        | .ok tagByte =>
          if [tagByte] ≠ [5] then .error (.msg "Invalid tag")
          else
            match goSlice data 3 5 with
            | .error e => .error e
            | .ok seqBytes =>
              if readUint16 seqBytes ≠ 0 then .error (.msg "Invalid sequence")
              else
                match goSlice data 5 7 with
                | .error e => .error e
                | .ok lenBytes =>
                  let responseLength : Int := (readUint16 lenBytes : Int)
                  if (data.length : Int) < 5 + 2 + responseLength then .error .moreData
                  else
                    let blockSize : Int :=
                      if responseLength > packetSize - 5 - 2 then packetSize - 5 - 2
                      else responseLength
                    match goSlice data 7 (7 + blockSize) with
                    | .error e => .error e
                    | .ok res0 =>
                      match unwrapLoop channel data packetSize responseLength
                          (responseLength.toNat + 1) 0 (7 + blockSize) res0 with
                      | .error e => .error e
                      | .ok result =>
                        let swOffset : Int := (result.length : Int) - 2
                        match goIndex result swOffset, goIndex result (swOffset + 1) with
                        | .ok hi, .ok lo =>
                          match checkFailure (256 * hi + lo) with
                          | some e => .error e
                          | none => goSlice result 0 swOffset
                        | .error e, _ => .error e
                        | _, .error e => .error e

/-- **C1** (code bug witness).  The status word `0x6a84` is neither `0x9000`
nor has high byte `0x61`, yet `checkFailure` reports success for it: the Go
`case 0x6a84:` arm is empty and Go `switch` does not fall through, so the
function reaches `return nil`.  Its sibling `0x6a85` does map to the
insufficient-space failure, as the claim expects for both codes. -/
theorem checkFailure_0x6a84_reports_success :
    checkFailure 0x6a84 = none ∧
    checkFailure 0x6a85 = some (.msg "Not enough space?") ∧
    (0x6a84 : Nat) ≠ 0x9000 ∧ (0x6a84 : Nat) &&& 0xFF00 ≠ 0x6100 :=
  ⟨rfl, rfl, by decide, by decide⟩

set_option maxRecDepth 10000 in
/-- **C2** (code bug witness).  A response with 117 application bytes
(115-byte payload plus status `0x9000`) wraps into 3 packets (192 bytes).
The 64-byte prefix correctly yields `ErrMoreData`, but the 128-byte prefix —
a proper prefix of whole packets with only 116 of the declared 117 bytes
assembled — passes the `len(data) < 7 + responseLength` check
(`128 ≥ 124`), enters the reassembly loop, runs out of data mid-frame and
returns the *fatal* `"No data"` error instead of `ErrMoreData`. -/
theorem unwrap_whole_packet_prefix_fatal_no_data :
    (wrapCommandAPDU [1, 1] (List.replicate 115 7 ++ [144, 0]) 64).map List.length =
      .ok 192 ∧
    (do
      let d ← wrapCommandAPDU [1, 1] (List.replicate 115 7 ++ [144, 0]) 64
      unwrapResponseAPDU [1, 1] (d.take 64) 64) = .error .moreData ∧
    (do
      let d ← wrapCommandAPDU [1, 1] (List.replicate 115 7 ++ [144, 0]) 64
      unwrapResponseAPDU [1, 1] (d.take 128) 64) = .error (.msg "No data") ∧
    (do
      let d ← wrapCommandAPDU [1, 1] (List.replicate 115 7 ++ [144, 0]) 64
      unwrapResponseAPDU [1, 1] d 64) = .ok (List.replicate 115 7) :=
  ⟨rfl, rfl, rfl, rfl⟩

/-- **C3** (counterexample).  With packet size 9 and the empty payload the
wrapped frame is a single 9-byte packet, shorter than the 12-byte minimum
`unwrapResponseAPDU` insists on, so the round trip fails with the fatal
`"No data"` error rather than returning the payload. -/
theorem wrap_unwrap_packet9_empty_payload_fails :
    (do
      let d ← wrapCommandAPDU [1, 1] ([] ++ [144, 0]) 9
      unwrapResponseAPDU [1, 1] d 9) = .error (.msg "No data") ∧
    wrapCommandAPDU [1, 1] ([] ++ [144, 0]) 9 ≠ .error .moreData :=
  ⟨rfl, by decide⟩

/-- **C9.**  For every packet size `3 ≤ s ≤ 6` and non-empty command,
`wrapCommandAPDU` passes its only guard (`packetSize < 3`) but computes the
negative first-chunk block size `s - 7` and panics slicing
`command[0 : s-7]`: the error branch of the total embedding is reachable
inside the stated precondition `packetSize ≥ 3`. -/
theorem wrap_small_packet_size_panics (s : Int) (h3 : 3 ≤ s) (h6 : s ≤ 6)
    (channel command : List Nat) (hne : command ≠ []) :
    wrapCommandAPDU channel command s = .error (.panic "slice bounds out of range") := by
  have hlen : (1 : Int) ≤ (command.length : Int) := by
    have h := List.length_pos.mpr hne
    exact_mod_cast h
  simp only [wrapCommandAPDU, goSlice]
  rw [if_neg (by omega : ¬ s < 3)]
  rw [if_pos (by omega : (command.length : Int) > s - 5 - 2)]
  rw [if_neg (by omega :
    ¬ (0 ≤ (0 : Int) ∧ (0 : Int) ≤ 0 + (s - 5 - 2) ∧
        0 + (s - 5 - 2) ≤ (command.length : Int)))]

/-- Witness for **C9** at `s = 3`, command `[7]`. -/
theorem wrap_small_packet_size_panics_witness :
    wrapCommandAPDU [1, 1] [7] 3 = .error (.panic "slice bounds out of range") :=
  wrap_small_packet_size_panics 3 (by decide) (by decide) [1, 1] [7] (by decide)

/-! ## SHA-256

`crypto.go` computes its checksums with the Go standard library
`sha256.Sum256`, which is external to this repository; the spec describes the
operation as "double-SHA-256".  Modelled from the spec: the function is
embedded in full following FIPS 180-4.  The theorems below depend only on it
being a function, on its output length (32) and on its output consisting of
bytes — not on particular digest values. -/

/-- Right rotation of a 32-bit word (the argument is assumed `< 2^32`). -/
def rotr32 (k x : Nat) : Nat := x / 2 ^ k + x % 2 ^ k * 2 ^ (32 - k)

def shaCh (x y z : Nat) : Nat := x &&& y ^^^ ((x ^^^ 0xFFFFFFFF) &&& z)

def shaMaj (x y z : Nat) : Nat := x &&& y ^^^ (x &&& z) ^^^ (y &&& z)

def bigSigma0 (x : Nat) : Nat := rotr32 2 x ^^^ rotr32 13 x ^^^ rotr32 22 x

def bigSigma1 (x : Nat) : Nat := rotr32 6 x ^^^ rotr32 11 x ^^^ rotr32 25 x

def smallSigma0 (x : Nat) : Nat := rotr32 7 x ^^^ rotr32 18 x ^^^ x / 2 ^ 3

def smallSigma1 (x : Nat) : Nat := rotr32 17 x ^^^ rotr32 19 x ^^^ x / 2 ^ 10

/-- FIPS 180-4 round constants 0..15 (decimal). -/
def shaKa : List Nat :=
  [1116352408, 1899447441, 3049323471, 3921009573,
   961987163, 1508970993, 2453635748, 2870763221,
   3624381080, 310598401, 607225278, 1426881987,
   1925078388, 2162078206, 2614888103, 3248222580]

/-- FIPS 180-4 round constants 16..31 (decimal). -/
def shaKb : List Nat :=
  [3835390401, 4022224774, 264347078, 604807628,
   770255983, 1249150122, 1555081692, 1996064986,
   2554220882, 2821834349, 2952996808, 3210313671,
   3336571891, 3584528711, 113926993, 338241895]

/-- FIPS 180-4 round constants 32..47 (decimal). -/
def shaKc : List Nat :=
  [666307205, 773529912, 1294757372, 1396182291,
   1695183700, 1986661051, 2177026350, 2456956037,
   2730485921, 2820302411, 3259730800, 3345764771,
   3516065817, 3600352804, 4094571909, 275423344]

/-- FIPS 180-4 round constants 48..63 (decimal). -/
def shaKd : List Nat :=
  [430227734, 506948616, 659060556, 883997877,
   958139571, 1322822218, 1537002063, 1747873779,
   1955562222, 2024104815, 2227730452, 2361852424,
   2428436474, 2756734187, 3204031479, 3329325298]

/-- The 64 SHA-256 round constants. -/
def shaK : List Nat := shaKa ++ shaKb ++ shaKc ++ shaKd

/-- The eight 32-bit working variables of the compression function. -/
structure Hash8 where
  a : Nat
  b : Nat
  c : Nat
  d : Nat
  e : Nat
  f : Nat
  g : Nat
  h : Nat
  deriving DecidableEq, Repr

def sha256InitH : Hash8 :=
  ⟨1779033703, 3144134277, 1013904242, 2773480762,
   1359893119, 2600822924, 528734635, 1541459225⟩

/-- Next word of the message schedule, computed from the last 16 words. -/
def scheduleStep (w : List Nat) : Nat :=
  (smallSigma1 (w.getD (w.length - 2) 0) + w.getD (w.length - 7) 0 +
   smallSigma0 (w.getD (w.length - 15) 0) + w.getD (w.length - 16) 0) % 4294967296

/-- Extend the 16 block words to the 64-entry message schedule. -/
def extendSchedule (w : List Nat) : List Nat :=
  (List.range 48).foldl (fun acc _ => acc ++ [scheduleStep acc]) w

/-- One compression round. -/
def shaRound (st : Hash8) (kw : Nat × Nat) : Hash8 :=
  let t1 := (st.h + bigSigma1 st.e + shaCh st.e st.f st.g + kw.1 + kw.2) % 4294967296
  let t2 := (bigSigma0 st.a + shaMaj st.a st.b st.c) % 4294967296
  { a := (t1 + t2) % 4294967296, b := st.a, c := st.b, d := st.c,
    e := (st.d + t1) % 4294967296, f := st.e, g := st.f, h := st.g }

/-- The 16 big-endian 32-bit words of one 64-byte block. -/
def wordsOfBlock (block : List Nat) : List Nat :=
  (List.range 16).map fun i =>
    block.getD (4 * i) 0 * 16777216 + block.getD (4 * i + 1) 0 * 65536 +
      block.getD (4 * i + 2) 0 * 256 + block.getD (4 * i + 3) 0

/-- Compress one 64-byte block into the running hash state. -/
def processBlock (st : Hash8) (block : List Nat) : Hash8 :=
  let r := ((shaK.zip (extendSchedule (wordsOfBlock block))).foldl shaRound st)
  { a := (st.a + r.a) % 4294967296, b := (st.b + r.b) % 4294967296,
    c := (st.c + r.c) % 4294967296, d := (st.d + r.d) % 4294967296,
    e := (st.e + r.e) % 4294967296, f := (st.f + r.f) % 4294967296,
    g := (st.g + r.g) % 4294967296, h := (st.h + r.h) % 4294967296 }

/-- Split into successive 64-byte blocks (fuel ≥ list length). -/
def chunks64 : Nat → List Nat → List (List Nat)
  | 0, _ => []
  | _, [] => []
  | fuel + 1, l => l.take 64 :: chunks64 fuel (l.drop 64)

/-- FIPS 180-4 padding: `0x80`, zeros, and the 64-bit big-endian bit length,
bringing the total length to a multiple of 64. -/
def shaPad (msg : List Nat) : List Nat :=
  msg ++ 128 :: List.replicate ((64 - (msg.length + 9) % 64) % 64) 0 ++
    [8 * msg.length / 2 ^ 56 % 256, 8 * msg.length / 2 ^ 48 % 256,
     8 * msg.length / 2 ^ 40 % 256, 8 * msg.length / 2 ^ 32 % 256,
     8 * msg.length / 2 ^ 24 % 256, 8 * msg.length / 2 ^ 16 % 256,
     8 * msg.length / 2 ^ 8 % 256, 8 * msg.length % 256]

/-- Big-endian bytes of one 32-bit word. -/
def word4 (x : Nat) : List Nat :=
  [x / 16777216 % 256, x / 65536 % 256, x / 256 % 256, x % 256]

def hashToBytes (st : Hash8) : List Nat :=
  word4 st.a ++ word4 st.b ++ word4 st.c ++ word4 st.d ++
    word4 st.e ++ word4 st.f ++ word4 st.g ++ word4 st.h

/-- `sha256.Sum256` as a function on byte lists. -/
def sha256 (msg : List Nat) : List Nat :=
  hashToBytes ((chunks64 (shaPad msg).length (shaPad msg)).foldl processBlock sha256InitH)

/-! ## crypto.go: the checksummed base-58 codec

Go strings here are byte strings, embedded as `List Nat`. -/

/-- The base-58 alphabet constant from `crypto.go`, as byte values. -/
def alphabet : List Nat :=
  "123456789ABCDEFGHJKLMNPQRSTUVWXYZabcdefghijkmnopqrstuvwxyz".data.map Char.toNat

/-- Big-endian base-`b` digits of `n`, most significant first, `[]` for 0.
Fuel recursion; any fuel `≥ n` gives the same result (`natToDigitsBE_fuel`). -/
def natToDigitsBE (b : Nat) : Nat → Nat → List Nat
  | 0, _ => []
  | fuel + 1, n => if n = 0 then [] else natToDigitsBE b fuel (n / b) ++ [n % b]

/-- Value of a big-endian digit list in base `b`
(`big.Int.SetBytes` for `b = 256`; the accumulation loop of `b58decode` for
`b = 58`). -/
def digitsBEToNat (b : Nat) (l : List Nat) : Nat :=
  l.foldl (fun acc d => acc * b + d) 0

/-- The accumulation loop of `b58decode` from `crypto.go`: for each character
look up its alphabet index (`bytes.IndexByte`; `-1` means not found and is a
fatal error) and fold it into the arbitrary-precision accumulator. -/
def b58decodeNum : List Nat → Nat → Except GoErr Nat
  | [], acc => .ok acc
  | c :: rest, acc =>
    if alphabet.contains c then b58decodeNum rest (acc * 58 + alphabet.indexOf c)
    else .error (.msg "character not found in alphabet")

/-- `b58decode` from `crypto.go`: accumulate the value, then `big.Int.Bytes()`
(minimal big-endian bytes, no leading zero byte). -/
def b58decode (data : List Nat) : Except GoErr (List Nat) :=
  match b58decodeNum data 0 with
  | .error e => .error e
  | .ok v => .ok (natToDigitsBE 256 v v)

/-- Modelled from the spec: `base58.Encode` of the external
`btcsuite/btcutil/base58` dependency (its source is not part of this
repository).  The spec describes the call as base-58 encoding over the
alphabet which "otherwise drops leading zero bytes": the input bytes are read
as one big-endian integer and its base-58 digits are mapped through the
alphabet. -/
def base58Encode (bs : List Nat) : List Nat :=
  (natToDigitsBE 58 (digitsBEToNat 256 bs) (digitsBEToNat 256 bs)).map
    (fun d => alphabet.getD d 0)

/-- `encode` from `crypto.go`: append the 4-byte double-SHA-256 checksum,
count leading zero bytes, base-58 encode, and prepend one literal `'1'`
(byte 49) per leading zero byte. -/
def encode (dataBytes : List Nat) : List Nat :=
  let withCk := dataBytes ++ (sha256 (sha256 dataBytes)).take 4
  List.replicate ((withCk.takeWhile (fun b => b == 0)).length) 49 ++ base58Encode withCk

/-- `decode` from `crypto.go`: count leading `'1'` characters, reverse the
base-58 accumulation, reject results of at most 4 bytes, split data/checksum
at `len - 4`, re-prepend one zero byte per leading `'1'`, and validate the
double-SHA-256 checksum. -/
def decode (encoded : List Nat) : Except GoErr (List Nat) :=
  let zeroCount := (encoded.takeWhile (fun c => c == 49)).length
  match b58decode encoded with
  | .error e => .error e
  | .ok dataBytes =>
    if dataBytes.length ≤ 4 then .error (.msg "invalid decode length")
    else
      let data := List.replicate zeroCount 0 ++ dataBytes.take (dataBytes.length - 4)
      if dataBytes.drop (dataBytes.length - 4) = (sha256 (sha256 data)).take 4 then .ok data
      else .error (.msg "data and checksum don\x27t match")

/-- `B58cencode(payload, prefix)` from `crypto.go` (the second parameter is
named `prefix` in Go, a Lean keyword, hence `pfx`): build `prefix ‖ payload`
and encode it. -/
def B58cencode (payload pfx : List Nat) : List Nat :=
  encode (pfx ++ payload)

/-- `B58cdecode(payload, prefix)` from `crypto.go`.  The Go body is
`b58c, _ := decode(payload); return b58c[len(prefix):]` — the error from
`decode` is discarded; on failure `decode`'s returned value is the empty
slice, so the trailing slice expression panics whenever `prefix` is
non-empty, and silently returns data otherwise. -/
def B58cdecode (payload pfx : List Nat) : Except GoErr (List Nat) :=
  let b58c := match decode payload with
    | .ok d => d
    | .error _ => []
  goSlice b58c (pfx.length : Int) (b58c.length : Int)

/-! ## tezos-crypto.go: the version prefix table

The Go package-level variables are `tz1prefix`, `edsigprefix`, … ; `prefix`
is a Lean keyword, so the Lean names capitalise the suffix. -/

def tz1Prefix : List Nat := [6, 161, 159]

def tz2Prefix : List Nat := [6, 161, 161]

def tz3Prefix : List Nat := [6, 161, 164]

def ktPrefix : List Nat := [2, 90, 121]

def edskPrefix : List Nat := [43, 246, 78, 7]

def edsigPrefix : List Nat := [9, 245, 205, 134, 18]

def sigPrefix : List Nat := [4, 130, 43]

def edsk2Prefix : List Nat := [13, 15, 58, 7]

def edpkPrefix : List Nat := [13, 15, 37, 217]

def edeskPrefix : List Nat := [7, 90, 60, 179, 41]

def branchPrefix : List Nat := [1, 52]

def chainidPrefix : List Nat := [57, 52, 0]

def blockPrefix : List Nat := [1]

def endorsementPrefix : List Nat := [2]

def genericopPrefix : List Nat := [3]

def networkPrefix : List Nat := [87, 82, 0]

/-- All version prefixes defined in `tezos-crypto.go`. -/
def definedPrefixes : List (List Nat) :=
  [tz1Prefix, tz2Prefix, tz3Prefix, ktPrefix, edskPrefix, edsigPrefix,
   sigPrefix, edsk2Prefix, edpkPrefix, edeskPrefix, branchPrefix,
   chainidPrefix, blockPrefix, endorsementPrefix, genericopPrefix,
   networkPrefix]

/-! ## Lemmas about base conversion -/

theorem natToDigitsBE_zero (b : Nat) : ∀ fuel, natToDigitsBE b fuel 0 = [] := by
  intro fuel
  cases fuel <;> simp [natToDigitsBE]

theorem natToDigitsBE_fuel (b : Nat) (hb : 2 ≤ b) :
    ∀ fuel fuel' n, n ≤ fuel → n ≤ fuel' →
      natToDigitsBE b fuel n = natToDigitsBE b fuel' n := by
  intro fuel
  induction fuel with
  | zero =>
    intro fuel' n hn _
    have : n = 0 := Nat.le_zero.mp hn
    subst this
    rw [natToDigitsBE_zero, natToDigitsBE_zero]
  | succ f ih =>
    intro fuel' n hn hn'
    by_cases h0 : n = 0
    · subst h0
      rw [natToDigitsBE_zero, natToDigitsBE_zero]
    · have hpos : 0 < n := Nat.pos_of_ne_zero h0
      have hfl : 0 < fuel' := Nat.lt_of_lt_of_le hpos hn'
      obtain ⟨f', rfl⟩ : ∃ f', fuel' = f' + 1 :=
        ⟨fuel' - 1, by omega⟩
      have hdiv : n / b < n := Nat.div_lt_self hpos (by omega)
      simp only [natToDigitsBE, if_neg h0]
      rw [ih f' (n / b) (by omega) (by omega)]

theorem natToDigitsBE_digit_lt (b : Nat) (hb : 2 ≤ b) :
    ∀ fuel n d, d ∈ natToDigitsBE b fuel n → d < b := by
  intro fuel
  induction fuel with
  | zero => intro n d hd; simp [natToDigitsBE] at hd
  | succ f ih =>
    intro n d hd
    by_cases h0 : n = 0
    · subst h0; rw [natToDigitsBE_zero] at hd; simp at hd
    · simp only [natToDigitsBE, if_neg h0, List.mem_append, List.mem_singleton] at hd
      rcases hd with hd | rfl
      · exact ih _ _ hd
      · exact Nat.mod_lt _ (by omega)

theorem natToDigitsBE_head_ne_zero (b : Nat) (hb : 2 ≤ b) :
    ∀ fuel n, n ≠ 0 → n ≤ fuel →
      ∃ d ds, natToDigitsBE b fuel n = d :: ds ∧ d ≠ 0 := by
  intro fuel
  induction fuel with
  | zero => intro n h0 hn; omega
  | succ f ih =>
    intro n h0 hn
    simp only [natToDigitsBE, if_neg h0]
    by_cases hq : n / b = 0
    · refine ⟨n % b, [], ?_, ?_⟩
      · rw [hq, natToDigitsBE_zero]
        rfl
      · have : n < b := (Nat.div_eq_zero_iff (by omega)).mp hq
        rw [Nat.mod_eq_of_lt this]
        exact h0
    · have hdiv : n / b < n := Nat.div_lt_self (Nat.pos_of_ne_zero h0) (by omega)
      obtain ⟨d, ds, heq, hd⟩ := ih (n / b) hq (by omega)
      exact ⟨d, ds ++ [n % b], by rw [heq]; rfl, hd⟩

theorem digitsBEToNat_append_singleton (b : Nat) (l : List Nat) (d : Nat) :
    digitsBEToNat b (l ++ [d]) = digitsBEToNat b l * b + d := by
  simp [digitsBEToNat, List.foldl_append]

theorem digitsBEToNat_natToDigitsBE (b : Nat) (hb : 2 ≤ b) :
    ∀ fuel n, n ≤ fuel → digitsBEToNat b (natToDigitsBE b fuel n) = n := by
  intro fuel
  induction fuel with
  | zero =>
    intro n hn
    have : n = 0 := Nat.le_zero.mp hn
    subst this
    rw [natToDigitsBE_zero]
    rfl
  | succ f ih =>
    intro n hn
    by_cases h0 : n = 0
    · subst h0
      rw [natToDigitsBE_zero]
      rfl
    · have hdiv : n / b < n := Nat.div_lt_self (Nat.pos_of_ne_zero h0) (by omega)
      simp only [natToDigitsBE, if_neg h0]
      rw [digitsBEToNat_append_singleton, ih (n / b) (by omega), Nat.mul_comm]
      exact Nat.div_add_mod n b

theorem digitsBEToNat_foldl_le (b : Nat) (hb : 1 ≤ b) :
    ∀ (l : List Nat) (acc : Nat), acc ≤ l.foldl (fun a d => a * b + d) acc := by
  intro l
  induction l with
  | nil => intro acc; exact Nat.le_refl acc
  | cons x xs ih =>
    intro acc
    calc acc ≤ acc * b + x := by nlinarith
    _ ≤ xs.foldl (fun a d => a * b + d) (acc * b + x) := ih _

theorem digitsBEToNat_pos (b : Nat) (hb : 1 ≤ b) (x : Nat) (xs : List Nat)
    (hx : x ≠ 0) : 0 < digitsBEToNat b (x :: xs) := by
  have h1 : 1 ≤ x := Nat.pos_of_ne_zero hx
  have : x ≤ xs.foldl (fun a d => a * b + d) x := digitsBEToNat_foldl_le b hb xs x
  simp only [digitsBEToNat, List.foldl_cons, Nat.zero_mul, Nat.zero_add]
  omega

theorem natToDigitsBE_digitsBEToNat (b : Nat) (hb : 2 ≤ b) :
    ∀ l : List Nat, l ≠ [] → l.head? ≠ some 0 → (∀ d ∈ l, d < b) →
      ∀ fuel, digitsBEToNat b l ≤ fuel →
        natToDigitsBE b fuel (digitsBEToNat b l) = l := by
  intro l
  induction l using List.reverseRecOn with
  | nil => intro h; exact absurd rfl h
  | append_singleton ys d ih =>
    intro _ hhead hlt fuel hfuel
    rw [digitsBEToNat_append_singleton] at hfuel ⊢
    have hdb : d < b := hlt d (by simp)
    cases ys with
    | nil =>
      simp only [digitsBEToNat, List.foldl_nil, Nat.zero_mul, Nat.zero_add] at hfuel ⊢
      have hd0 : d ≠ 0 := by simpa using hhead
      obtain ⟨f, rfl⟩ : ∃ f, fuel = f + 1 := ⟨fuel - 1, by omega⟩
      simp only [natToDigitsBE, if_neg hd0]
      rw [Nat.div_eq_of_lt hdb, natToDigitsBE_zero, Nat.mod_eq_of_lt hdb]
    | cons y ys' =>
      have hy : y ≠ 0 := by simpa using hhead
      have hval : 0 < digitsBEToNat b (y :: ys') := digitsBEToNat_pos b (by omega) y ys' hy
      set v := digitsBEToNat b (y :: ys') with hv
      have hpos2 : 0 < v * b + d := by nlinarith
      have hne0 : v * b + d ≠ 0 := by omega
      have hf1 : 1 ≤ fuel := by omega
      obtain ⟨f, rfl⟩ : ∃ f, fuel = f + 1 := ⟨fuel - 1, by omega⟩
      simp only [natToDigitsBE, if_neg hne0]
      have hdivv : (v * b + d) / b = v := by
        rw [Nat.mul_comm v b, Nat.mul_add_div (by omega : 0 < b), Nat.div_eq_of_lt hdb,
          Nat.add_zero]
      have hmodv : (v * b + d) % b = d := by
        rw [Nat.mul_comm v b, Nat.mul_add_mod, Nat.mod_eq_of_lt hdb]
      have hsub : ∀ x, x ∈ y :: ys' → x < b := by
        intro x hx
        rcases List.mem_cons.mp hx with rfl | h
        · exact hlt x (List.mem_cons_self _ _)
        · exact hlt x (List.mem_cons_of_mem _ (List.mem_append_left _ h))
      rw [hdivv, hmodv,
        ih (by simp) (by simpa using hhead) hsub f (by nlinarith)]

/-! ## Lemmas about the alphabet and the hash output -/

theorem alphabet_indexOf_getD : ∀ d, d < 58 → alphabet.indexOf (alphabet.getD d 0) = d := by
  decide

theorem alphabet_contains_getD : ∀ d, d < 58 → alphabet.contains (alphabet.getD d 0) = true := by
  decide

theorem alphabet_getD_ne_one : ∀ d, d < 58 → d ≠ 0 → alphabet.getD d 0 ≠ 49 := by
  decide

theorem word4_lt (y : Nat) : ∀ x ∈ word4 y, x < 256 := by
  intro x hx
  simp only [word4, List.mem_cons, List.not_mem_nil, or_false] at hx
  rcases hx with rfl | rfl | rfl | rfl <;> exact Nat.mod_lt _ (by norm_num)

theorem sha256_length (m : List Nat) : (sha256 m).length = 32 := by
  simp [sha256, hashToBytes, word4]

theorem sha256_bytes_lt (m : List Nat) : ∀ x ∈ sha256 m, x < 256 := by
  intro x hx
  simp only [sha256, hashToBytes, List.mem_append] at hx
  rcases hx with ((((((h | h) | h) | h) | h) | h) | h) | h <;> exact word4_lt _ x h

/-- The checksum appended by `encode` is exactly 4 bytes. -/
theorem checksum_length (m : List Nat) : ((sha256 (sha256 m)).take 4).length = 4 := by
  rw [List.length_take, sha256_length]
  rfl

/-- Evaluating the accumulation loop of `b58decode` on characters drawn from
the alphabet recovers the base-58 digit fold. -/
theorem b58decodeNum_map (ds : List Nat) (hds : ∀ d ∈ ds, d < 58) :
    ∀ acc, b58decodeNum (ds.map (fun d => alphabet.getD d 0)) acc =
      .ok (ds.foldl (fun a d => a * 58 + d) acc) := by
  induction ds with
  | nil => intro acc; rfl
  | cons d ds ih =>
    intro acc
    have hd : d < 58 := hds d (List.mem_cons_self _ _)
    simp only [List.map_cons, b58decodeNum, alphabet_contains_getD d hd, if_true,
      alphabet_indexOf_getD d hd, List.foldl_cons]
    exact ih (fun x hx => hds x (List.mem_cons_of_mem _ hx)) _

/-- Every prefix defined in `tezos-crypto.go` is non-empty, starts with a
non-zero byte and consists of bytes. -/
theorem definedPrefixes_wf :
    ∀ p ∈ definedPrefixes, p ≠ [] ∧ p.head? ≠ some 0 ∧ ∀ x ∈ p, x < 256 := by
  decide

/-- `decode` inverts `encode` on byte strings whose first byte is non-zero
(which covers every `prefix ‖ payload` built from a defined prefix). -/
theorem decode_encode (d : List Nat) (hne : d ≠ []) (hhead : d.head? ≠ some 0)
    (hbytes : ∀ x ∈ d, x < 256) :
    decode (encode d) = .ok d := by
  cases d with
  | nil => exact absurd rfl hne
  | cons x xs =>
    have hx0 : x ≠ 0 := by simpa using hhead
    set ck := (sha256 (sha256 (x :: xs))).take 4 with hck
    have hdc : (x :: xs) ++ ck = x :: (xs ++ ck) := rfl
    have hvpos : 0 < digitsBEToNat 256 ((x :: xs) ++ ck) := by
      rw [hdc]; exact digitsBEToNat_pos 256 (by norm_num) x _ hx0
    set v := digitsBEToNat 256 ((x :: xs) ++ ck) with hv
    have henc : encode (x :: xs) =
        (natToDigitsBE 58 v v).map (fun dg => alphabet.getD dg 0) := by
      simp only [encode, base58Encode, ← hck, ← hv, hdc, List.takeWhile_cons]
      have : (x == 0) = false := by simpa using hx0
      simp [this]
      rfl
    obtain ⟨d0, ds0, h58, hd0⟩ :=
      natToDigitsBE_head_ne_zero 58 (by norm_num) v v (by omega) (Nat.le_refl v)
    have hd0lt : d0 < 58 :=
      natToDigitsBE_digit_lt 58 (by norm_num) v v d0 (by rw [h58]; exact List.mem_cons_self _ _)
    have hlt58 : ∀ dg ∈ natToDigitsBE 58 v v, dg < 58 :=
      fun dg hdg => natToDigitsBE_digit_lt 58 (by norm_num) v v dg hdg
    have hb58 : b58decode ((natToDigitsBE 58 v v).map (fun dg => alphabet.getD dg 0)) =
        .ok ((x :: xs) ++ ck) := by
      simp only [b58decode, b58decodeNum_map (natToDigitsBE 58 v v) hlt58 0]
      have hfold : (natToDigitsBE 58 v v).foldl (fun a dg => a * 58 + dg) 0 = v :=
        digitsBEToNat_natToDigitsBE 58 (by norm_num) v v (Nat.le_refl v)
      rw [hfold]
      congr 1
      apply natToDigitsBE_digitsBEToNat 256 (by norm_num)
      · simp [hdc]
      · rw [hdc]; simpa using hx0
      · intro y hy
        rcases List.mem_append.mp hy with h | h
        · exact hbytes y h
        · exact sha256_bytes_lt _ y (List.take_subset 4 _ h)
      · exact Nat.le_refl v
    have hlen : ((x :: xs) ++ ck).length = (x :: xs).length + 4 := by
      rw [List.length_append, hck, checksum_length]
    have hne49 : alphabet.getD d0 0 ≠ 49 := alphabet_getD_ne_one d0 hd0lt hd0
    have hzc : ((natToDigitsBE 58 v v).map (fun dg => alphabet.getD dg 0)).takeWhile
        (fun c => c == 49) = [] := by
      rw [h58, List.map_cons]
      simp only [List.takeWhile_cons]
      rw [if_neg (by simpa using hne49)]
    have htake : ((x :: xs) ++ ck).take (((x :: xs) ++ ck).length - 4) = x :: xs := by
      rw [hlen, Nat.add_sub_cancel, List.take_left]
    have hdrop : ((x :: xs) ++ ck).drop (((x :: xs) ++ ck).length - 4) = ck := by
      rw [hlen, Nat.add_sub_cancel, List.drop_left]
    rw [henc]
    simp only [decode, hb58, hzc, List.length_nil, List.replicate_zero, List.nil_append]
    have hxs1 : (x :: xs).length = xs.length + 1 := rfl
    rw [if_neg (by omega), htake, hdrop, hck]
    rw [if_pos rfl]

/-- **C5.**  For every byte-string payload and every one of the version
prefixes defined in `tezos-crypto.go`, `B58cdecode ∘ B58cencode` with the
same prefix returns the original payload.  (Every defined prefix starts with
a non-zero byte, so the leading-zero handling of `encode`/`decode` is never
exercised by these prefixes.) -/
theorem b58c_roundtrip_defined_prefixes (payload : List Nat)
    (hbytes : ∀ x ∈ payload, x < 256) (p : List Nat) (hp : p ∈ definedPrefixes) :
    B58cdecode (B58cencode payload p) p = .ok payload := by
  obtain ⟨hne, hhead, hpb⟩ := definedPrefixes_wf p hp
  have hd : decode (encode (p ++ payload)) = .ok (p ++ payload) := by
    apply decode_encode
    · intro h
      exact hne (List.append_eq_nil.mp h).1
    · cases p with
      | nil => exact absurd rfl hne
      | cons y ys => simpa using (by simpa using hhead : y ≠ 0)
    · intro x hx
      rcases List.mem_append.mp hx with h | h
      · exact hpb x h
      · exact hbytes x h
  simp only [B58cdecode, B58cencode, hd, goSlice]
  rw [if_pos ⟨by positivity, by simp, le_refl _⟩]
  congr 1
  have h1 : ((p.length : Int)).toNat = p.length := by simp
  have h2 : (((p ++ payload).length : Int) - (p.length : Int)).toNat = payload.length := by
    push_cast [List.length_append]
    omega
  rw [h1, h2, List.drop_left, List.take_length]

/-- Witness for **C5** at payload `[0, 7]` and the `tz1` prefix. -/
theorem b58c_roundtrip_witness :
    B58cdecode (B58cencode [0, 7] tz1Prefix) tz1Prefix = .ok [0, 7] :=
  b58c_roundtrip_defined_prefixes [0, 7] (by decide) tz1Prefix (by decide)

/-- **C4** (code bug witness).  On the input `"0"` (byte 48, not a base-58
character) `decode` correctly fails with the alphabet error, but `B58cdecode`
discards that error: with the 3-byte `tz1` prefix it panics slicing the empty
result, and with an empty prefix it silently returns data (`[]`) as if the
decode had succeeded — the failure of the underlying decode is never
propagated (the Go function's `[]byte` return type cannot even carry it). -/
theorem b58cdecode_discards_decode_error :
    decode [48] = .error (.msg "character not found in alphabet") ∧
    B58cdecode [48] tz1Prefix = .error (.panic "slice bounds out of range") ∧
    B58cdecode [48] [] = .ok [] :=
  ⟨rfl, rfl, rfl⟩

/-- `takeWhile` walks through a replicate block whose element satisfies the
predicate. -/
theorem takeWhile_replicate_append (p : Nat → Bool) (a : Nat) (ha : p a = true) :
    ∀ (z : Nat) (l : List Nat),
      List.takeWhile p (List.replicate z a ++ l) = List.replicate z a ++ List.takeWhile p l := by
  intro z
  induction z with
  | zero => intro l; rfl
  | succ n ih =>
    intro l
    simp only [List.replicate_succ, List.cons_append, List.takeWhile_cons, ha, if_true, ih]

/-- **C8.**  `encode` prepends exactly one literal `'1'` (byte 49) per
leading zero byte of the pre-encoded data (input plus 4-byte checksum):
the output is that block of `'1'`s followed by the base-58 digits of the
data, the digit block consists of alphabet characters, and counting leading
`'1'`s of the output recovers exactly the leading-zero count — the digit
block never begins with another `'1'`. -/
theorem encode_leading_zero_ones (dataBytes : List Nat) :
    encode dataBytes =
      List.replicate
        (((dataBytes ++ (sha256 (sha256 dataBytes)).take 4).takeWhile (fun b => b == 0)).length)
        49 ++ base58Encode (dataBytes ++ (sha256 (sha256 dataBytes)).take 4) ∧
    ((encode dataBytes).takeWhile (fun c => c == 49)).length =
      ((dataBytes ++ (sha256 (sha256 dataBytes)).take 4).takeWhile (fun b => b == 0)).length ∧
    ∀ c ∈ base58Encode (dataBytes ++ (sha256 (sha256 dataBytes)).take 4),
      alphabet.contains c = true := by
  refine ⟨rfl, ?_, ?_⟩
  · set dc := dataBytes ++ (sha256 (sha256 dataBytes)).take 4 with hdc
    set v := digitsBEToNat 256 dc with hv
    have htail : (base58Encode dc).takeWhile (fun c => c == 49) = [] := by
      by_cases h0 : v = 0
      · simp [base58Encode, ← hv, h0, natToDigitsBE_zero]
      · obtain ⟨d0, ds0, h58, hd0⟩ :=
          natToDigitsBE_head_ne_zero 58 (by norm_num) v v h0 (Nat.le_refl v)
        have hd0lt : d0 < 58 := natToDigitsBE_digit_lt 58 (by norm_num) v v d0
          (by rw [h58]; exact List.mem_cons_self _ _)
        have hne49 : alphabet.getD d0 0 ≠ 49 := alphabet_getD_ne_one d0 hd0lt hd0
        rw [base58Encode, ← hv, h58, List.map_cons]
        simp only [List.takeWhile_cons]
        rw [if_neg (by simpa using hne49)]
    have : encode dataBytes =
        List.replicate ((dc.takeWhile (fun b => b == 0)).length) 49 ++ base58Encode dc := rfl
    rw [this, takeWhile_replicate_append _ 49 rfl, htail, List.append_nil,
      List.length_replicate]
  · intro c hc
    obtain ⟨dg, hdg, rfl⟩ := List.mem_map.mp hc
    exact alphabet_contains_getD dg (natToDigitsBE_digit_lt 58 (by norm_num) _ _ dg hdg)

/-! ## The BIP-32 path codec (`encodeBipPath` / `DecodeBipPath`)

This part of the embedding works on `String`/`List Char`, matching the Go
code, which treats the path as text. -/

/-- The `\d` character class of the regex `/(\d+)([hH']?)`. -/
def isDigitB (c : Char) : Bool := 48 ≤ c.toNat && c.toNat ≤ 57

/-- The `[hH']` character class (`h`, `H`, apostrophe). -/
def isModChar (c : Char) : Bool := c.toNat = 104 || c.toNat = 72 || c.toNat = 39

/-- `matchSections.FindAllStringSubmatch(path, limit)` for the anchored-free
regex `/(\d+)([hH']?)`: scan left to right, at each `/` take the maximal
digit run (at least one digit, otherwise no match starts at this `/`) and
then one optional modifier character; collect at most `limit` leftmost
non-overlapping matches.  A match is carried as its two capture groups
(digit run, modifier run of length 0 or 1); the `section[0]` whole-match
text is their concatenation after a `/` and is not materialised.  Fuel
recursion; any fuel `≥` the input length behaves like the Go scan. -/
def findSections : Nat → List Char → Nat → List (List Char × List Char)
  | 0, _, _ => []
  | _, _, 0 => []
  | _ + 1, [], _ => []
  | fuel + 1, c :: rest, limit + 1 =>
    if c.toNat = 47 then
      let ds := rest.takeWhile isDigitB
      if ds.isEmpty then findSections fuel rest (limit + 1)
      else
        match rest.dropWhile isDigitB with
        | [] => [(ds, [])]
        | m :: rest2 =>
          if isModChar m then (ds, [m]) :: findSections fuel rest2 limit
          else (ds, []) :: findSections fuel (m :: rest2) limit
    else findSections fuel rest (limit + 1)

/-- `matchSections.FindAllStringSubmatch(path, 4)`. -/
def matchSections (path : String) : List (List Char × List Char) :=
  findSections (path.data.length + 1) path.data 4

/-- `strconv.Atoi` on the digit runs produced by the regex: the parsed
decimal value, failing on empty or non-digit input and (with
`strconv.ErrRange`) on values beyond the signed 64-bit range. -/
def Atoi (s : List Char) : Except GoErr Nat :=
  if s ≠ [] ∧ s.all isDigitB then
    if s.foldl (fun a c => 10 * a + (c.toNat - 48)) 0 ≤ 9223372036854775807 then
      .ok (s.foldl (fun a c => 10 * a + (c.toNat - 48)) 0)
    else .error (.msg "value out of range")
  else .error (.msg "invalid syntax")

def hexDigitChar (d : Nat) : Char := Char.ofNat (if d < 10 then 48 + d else 87 + d)

/-- `fmt.Sprintf("%08x", val)` for `val < 2^32`: exactly eight lowercase hex
digits, zero padded. -/
def toHex8 (v : Nat) : List Char :=
  [hexDigitChar (v / 268435456 % 16), hexDigitChar (v / 16777216 % 16),
   hexDigitChar (v / 1048576 % 16), hexDigitChar (v / 65536 % 16),
   hexDigitChar (v / 4096 % 16), hexDigitChar (v / 256 % 16),
   hexDigitChar (v / 16 % 16), hexDigitChar (v % 16)]

def hexVal (c : Char) : Option Nat :=
  if 48 ≤ c.toNat ∧ c.toNat ≤ 57 then some (c.toNat - 48)
  else if 97 ≤ c.toNat ∧ c.toNat ≤ 102 then some (c.toNat - 87)
  else if 65 ≤ c.toNat ∧ c.toNat ≤ 70 then some (c.toNat - 55)
  else none

/-- `hex.DecodeString`. -/
def hexDecodeString : List Char → Except GoErr (List Nat)
  | [] => .ok []
  | [_] => .error (.msg "odd length hex string")
  | c1 :: c2 :: rest =>
    match hexVal c1, hexVal c2 with
    | some hi, some lo =>
      match hexDecodeString rest with
      | .error e => .error e
      | .ok bs => .ok ((16 * hi + lo) :: bs)
    | _, _ => .error (.msg "invalid byte")

/-- The per-section loop of `encodeBipPath`, accumulating the hex text
`retPath`.  Each Go submatch triple `[whole, digits, modifier]` always has
length 3, so the `len(section) != 3` guard of the source never fires; a
section is carried as its two capture groups. -/
def encodeSections : List (List Char × List Char) → List Char → Except GoErr (List Char)
  | [], acc => .ok acc
  | (num, m) :: rest, acc =>
    match Atoi num with
    | .error e => .error e
    | .ok val =>
      if val ≥ 2147483648 then .error (.msg "Invalid child index")
      else if m = ['h'] ∨ m = ['H'] ∨ m = [Char.ofNat 39] then
        encodeSections rest (acc ++ toHex8 (val + 2147483648))
      else if m.length ≠ 0 then .error (.msg "Invalid modifier")
      else encodeSections rest (acc ++ toHex8 val)

/-- `encodeBipPath` from the path codec source: explode the path on the
regex (at most 4 sections), start `retPath` at the *hardcoded* length byte
`"04"`, append each section's value as 8 hex digits (`+ 0x80000000` when the
modifier is `h`, `H` or the apostrophe), and hex-decode the accumulated
text into bytes. -/
def encodeBipPath (path : String) : Except GoErr (List Nat) :=
  match encodeSections (matchSections path) ['0', '4'] with
  | .error e => .error e
  | .ok retPath => hexDecodeString retPath

/-- `binary.BigEndian.Uint32` of a 4-byte slice. -/
def readUint32 (l : List Nat) : Nat :=
  l.getD 0 0 * 16777216 + l.getD 1 0 * 65536 + l.getD 2 0 * 256 + l.getD 3 0

/-- The rendering loop of `DecodeBipPath`
(`for i := 1; i < length*4; i += 4`).  When the first byte of a value is
exactly `0x80` the hardened bit is subtracted and an apostrophe appended
(for byte inputs the value is then `≥ 2^31`, so the `uint32` subtraction is
the plain one).  Fuel `length + 1` covers all iterations. -/
def decodeBipLoop (pathBytes : List Nat) (pathLen : Nat) :
    Nat → Int → String → Except GoErr String
  | 0, _, _ => .error .fuel
  | fuel + 1, i, path =>
    if i < (pathLen * 4 : Int) then
      match goSlice pathBytes i (i + 4) with
      | .error e => .error e
      | .ok vb =>
        match goIndex pathBytes i with
        | .error e => .error e
        | .ok b =>
          let hard := b = 128
          let v := if hard then readUint32 vb - 2147483648 else readUint32 vb
          let h := if hard then "\x27" else ""
          decodeBipLoop pathBytes pathLen fuel (i + 4) (path ++ "/" ++ toString v ++ h)
    else .ok path

/-- `DecodeBipPath` from the path codec source.  The segment count is read
from `pathBytes[0]` *before* any length validation; only then does the
`1 + length*4` lower bound get checked. -/
def DecodeBipPath (pathBytes : List Nat) : Except GoErr String :=
  match goIndex pathBytes 0 with
  | .error e => .error e
  | .ok b0 =>
    if (pathBytes.length : Int) < 1 + (b0 : Int) * 4 then
      .error (.msg "Invalid Bip Path Length")
    else decodeBipLoop pathBytes b0 (b0 + 1) 1 ""

/-- **C10.**  `DecodeBipPath` indexes `pathBytes[0]` before any length
validation, so the empty input panics (index out of range) rather than
failing with `InvalidPathLength`; the length guard works only once the input
has at least one byte (`[0]` decodes, `[5]` is rejected by the guard). -/
theorem decodeBipPath_empty_input_panics :
    DecodeBipPath [] = .error (.panic "index out of range") ∧
    DecodeBipPath [] ≠ .error (.msg "Invalid Bip Path Length") ∧
    DecodeBipPath [0] = .ok "" ∧
    DecodeBipPath [5] = .error (.msg "Invalid Bip Path Length") :=
  ⟨rfl, by decide, rfl, rfl⟩

/-- **C6** (counterexample).  The path `"/44h"` has exactly one segment, yet
the first (length) byte of the encoding is the hardcoded `4`, not the
segment count `1`. -/
theorem encodeBipPath_length_byte_not_segment_count :
    encodeBipPath "/44h" = .ok [4, 128, 0, 0, 44] ∧
    (matchSections "/44h").length = 1 ∧ (4 : Nat) ≠ 1 :=
  ⟨rfl, rfl, by decide⟩

/-- A derivation-path segment of the grammar `/<digits><marker?>`: a
non-empty decimal digit run and a marker that is empty or one of `h`, `H`,
apostrophe. -/
structure BipSeg where
  digits : List Char
  marker : List Char

def BipSeg.wf (s : BipSeg) : Prop :=
  s.digits ≠ [] ∧ s.digits.all isDigitB = true ∧
    (s.marker = [] ∨ s.marker = ['h'] ∨ s.marker = ['H'] ∨ s.marker = [Char.ofNat 39])

instance (s : BipSeg) : Decidable s.wf := by
  unfold BipSeg.wf
  infer_instance

/-- Numeric value of the digit run (what `strconv.Atoi` returns on it). -/
def BipSeg.val (s : BipSeg) : Nat :=
  s.digits.foldl (fun a c => 10 * a + (c.toNat - 48)) 0

/-- The 32-bit value encoded for a segment: its numeric value, plus
`0x80000000` when a hardened marker is present. -/
def BipSeg.encVal (s : BipSeg) : Nat :=
  s.val + (if s.marker = [] then 0 else 2147483648)

/-- Text of one segment: `/` then digits then the optional marker. -/
def renderSeg (s : BipSeg) : List Char := '/' :: (s.digits ++ s.marker)

/-- Text of a whole path. -/
def renderPath (segs : List BipSeg) : String := ⟨(segs.map renderSeg).flatten⟩

/-- 4-byte big-endian encoding of a 32-bit value. -/
def be4 (v : Nat) : List Nat :=
  [v / 16777216 % 256, v / 65536 % 256, v / 256 % 256, v % 256]

/-! ## Lemmas: the regex scan recovers the segments of a rendered path -/

theorem takeWhile_append_all (p : Char → Bool) :
    ∀ xs ys : List Char, (∀ x ∈ xs, p x = true) →
      (xs ++ ys).takeWhile p = xs ++ ys.takeWhile p ∧
      (xs ++ ys).dropWhile p = ys.dropWhile p := by
  intro xs
  induction xs with
  | nil => intro ys _; exact ⟨rfl, rfl⟩
  | cons x xs ih =>
    intro ys hall
    have hx : p x = true := hall x (List.mem_cons_self _ _)
    have hih := ih ys (fun y hy => hall y (List.mem_cons_of_mem _ hy))
    constructor
    · simp only [List.cons_append, List.takeWhile_cons, hx, if_true, hih.1]
    · simp only [List.cons_append, List.dropWhile_cons, hx, if_true, hih.2]

theorem takeWhile_head_not (p : Char → Bool) (ys : List Char)
    (h : ∀ y, ys.head? = some y → p y = false) :
    ys.takeWhile p = [] ∧ ys.dropWhile p = ys := by
  cases ys with
  | nil => exact ⟨rfl, rfl⟩
  | cons y ys =>
    have hy : p y = false := h y rfl
    simp [List.takeWhile_cons, List.dropWhile_cons, hy]

/-- One unfolding step of the scan on a cons cell with positive fuel and
limit. -/
theorem findSections_cons_eq (fuel limit : Nat) (c : Char) (rest : List Char) :
    findSections (fuel + 1) (c :: rest) (limit + 1) =
      if c.toNat = 47 then
        if (rest.takeWhile isDigitB).isEmpty then findSections fuel rest (limit + 1)
        else
          match rest.dropWhile isDigitB with
          | [] => [(rest.takeWhile isDigitB, [])]
          | m :: rest2 =>
            if isModChar m then
              (rest.takeWhile isDigitB, [m]) :: findSections fuel rest2 limit
            else (rest.takeWhile isDigitB, []) :: findSections fuel (m :: rest2) limit
      else findSections fuel rest (limit + 1) := rfl

/-- Scanning the rendered text of well-formed segments yields exactly their
capture-group pairs, for any sufficient fuel and any match limit at least
the number of segments. -/
theorem findSections_render (segs : List BipSeg) (hwf : ∀ s ∈ segs, s.wf) :
    ∀ fuel limit, (segs.map renderSeg).flatten.length ≤ fuel → segs.length ≤ limit →
      findSections fuel (segs.map renderSeg).flatten limit =
        segs.map (fun s => (s.digits, s.marker)) := by
  induction segs with
  | nil =>
    intro fuel limit _ _
    cases fuel <;> cases limit <;> rfl
  | cons s rest ih =>
    intro fuel limit hfuel hlimit
    obtain ⟨hdne, hdall, hmk⟩ := hwf s (List.mem_cons_self _ _)
    have hwfr : ∀ t ∈ rest, t.wf := fun t ht => hwf t (List.mem_cons_of_mem _ ht)
    have hjoin : ((s :: rest).map renderSeg).flatten =
        '/' :: (s.digits ++ (s.marker ++ (rest.map renderSeg).flatten)) := by
      simp [renderSeg, List.append_assoc]
    rw [hjoin] at hfuel ⊢
    have hflen : s.digits.length + s.marker.length + (rest.map renderSeg).flatten.length + 1 ≤
        fuel + 0 + 1 ∨ True := Or.inr trivial
    simp only [List.length_cons, List.length_append] at hfuel
    obtain ⟨f, rfl⟩ : ∃ f, fuel = f + 1 := ⟨fuel - 1, by omega⟩
    simp only [List.length_cons] at hlimit
    obtain ⟨l, rfl⟩ : ∃ l, limit = l + 1 := ⟨limit - 1, by omega⟩
    have hdigit : ∀ x ∈ s.digits, isDigitB x = true :=
      fun x hx => List.all_eq_true.mp hdall x hx
    have htail : ∀ y, (s.marker ++ (rest.map renderSeg).flatten).head? = some y →
        isDigitB y = false := by
      intro y hy
      rcases hmk with hm | hm | hm | hm
      · rw [hm, List.nil_append] at hy
        cases rest with
        | nil => simp at hy
        | cons t ts =>
          have hjr : ((t :: ts).map renderSeg).flatten =
              '/' :: (t.digits ++ (t.marker ++ (ts.map renderSeg).flatten)) := by
            simp [renderSeg, List.append_assoc]
          rw [hjr] at hy
          injection hy with hy
          subst hy
          decide
      all_goals
        rw [hm] at hy
        injection hy with hy
        subst hy
        decide
    have hsplit := takeWhile_append_all isDigitB s.digits
      (s.marker ++ (rest.map renderSeg).flatten) hdigit
    have hhead := takeWhile_head_not isDigitB (s.marker ++ (rest.map renderSeg).flatten) htail
    have htw : (s.digits ++ (s.marker ++ (rest.map renderSeg).flatten)).takeWhile isDigitB =
        s.digits := by
      rw [hsplit.1, hhead.1, List.append_nil]
    have hdw : (s.digits ++ (s.marker ++ (rest.map renderSeg).flatten)).dropWhile isDigitB =
        s.marker ++ (rest.map renderSeg).flatten := by
      rw [hsplit.2, hhead.2]
    rw [findSections_cons_eq, if_pos (show ('/' : Char).toNat = 47 from rfl), htw, hdw]
    have hdneb : ¬ s.digits.isEmpty = true := by
      simp only [List.isEmpty_iff]
      exact hdne
    rw [if_neg hdneb]
    rcases hmk with hm | hm | hm | hm
    · -- no marker: the next character (if any) is the slash of the next segment
      rw [hm, List.nil_append]
      cases rest with
      | nil => simp [hm]
      | cons t ts =>
        have hjr : ((t :: ts).map renderSeg).flatten =
            '/' :: (t.digits ++ (t.marker ++ (ts.map renderSeg).flatten)) := by
          simp [renderSeg, List.append_assoc]
        rw [hjr]
        show (s.digits, ([] : List Char)) ::
            findSections f ('/' :: (t.digits ++ (t.marker ++ (ts.map renderSeg).flatten))) l =
          _
        rw [← hjr, ih hwfr f l (by omega) (by omega)]
        simp [hm]
    all_goals
      rw [hm]
      show (s.digits, _) :: findSections f (rest.map renderSeg).flatten l = _
      rw [ih hwfr f l (by omega) (by omega)]
      simp [hm]

/-- Running the section loop of `encodeBipPath` over well-formed sections
with in-range values appends one 8-hex-digit block per section. -/
theorem encodeSections_spec (segs : List BipSeg)
    (hwf : ∀ s ∈ segs, s.wf ∧ s.val < 2147483648) :
    ∀ acc, encodeSections (segs.map fun s => (s.digits, s.marker)) acc =
      .ok (acc ++ (segs.map fun s => toHex8 s.encVal).flatten) := by
  induction segs with
  | nil => intro acc; simp [encodeSections]
  | cons s rest ih =>
    intro acc
    obtain ⟨⟨hdne, hdall, hmk⟩, hvlt⟩ := hwf s (List.mem_cons_self _ _)
    have hwfr : ∀ t ∈ rest, t.wf ∧ t.val < 2147483648 :=
      fun t ht => hwf t (List.mem_cons_of_mem _ ht)
    have hAtoi : Atoi s.digits = .ok s.val := by
      unfold Atoi
      rw [if_pos ⟨hdne, hdall⟩, if_pos (by unfold BipSeg.val at hvlt; omega)]
      rfl
    simp only [List.map_cons, encodeSections, hAtoi]
    rw [if_neg (by omega : ¬ s.val ≥ 2147483648)]
    rcases hmk with hm | hm | hm | hm
    · rw [hm, if_neg (by decide), if_neg (by decide), ih hwfr (acc ++ toHex8 s.val)]
      simp [BipSeg.encVal, hm, List.append_assoc]
    all_goals
      rw [hm, if_pos (by decide), ih hwfr (acc ++ toHex8 (s.val + 2147483648))]
      simp [BipSeg.encVal, hm, List.append_assoc]

theorem hexVal_hexDigitChar : ∀ d, d < 16 → hexVal (hexDigitChar d) = some d := by
  decide

/-- Decoding the 8-hex-digit block of a 32-bit value yields its 4 big-endian
bytes and continues with the remaining text. -/
theorem hexDecodeString_toHex8_append (v : Nat) (rest : List Char) :
    hexDecodeString (toHex8 v ++ rest) =
      match hexDecodeString rest with
      | .error e => .error e
      | .ok bs => .ok (be4 v ++ bs) := by
  have h0 := hexVal_hexDigitChar (v / 268435456 % 16) (Nat.mod_lt _ (by norm_num))
  have h1 := hexVal_hexDigitChar (v / 16777216 % 16) (Nat.mod_lt _ (by norm_num))
  have h2 := hexVal_hexDigitChar (v / 1048576 % 16) (Nat.mod_lt _ (by norm_num))
  have h3 := hexVal_hexDigitChar (v / 65536 % 16) (Nat.mod_lt _ (by norm_num))
  have h4 := hexVal_hexDigitChar (v / 4096 % 16) (Nat.mod_lt _ (by norm_num))
  have h5 := hexVal_hexDigitChar (v / 256 % 16) (Nat.mod_lt _ (by norm_num))
  have h6 := hexVal_hexDigitChar (v / 16 % 16) (Nat.mod_lt _ (by norm_num))
  have h7 := hexVal_hexDigitChar (v % 16) (Nat.mod_lt _ (by norm_num))
  have e0 : 16 * (v / 268435456 % 16) + v / 16777216 % 16 = v / 16777216 % 256 := by omega
  have e1 : 16 * (v / 1048576 % 16) + v / 65536 % 16 = v / 65536 % 256 := by omega
  have e2 : 16 * (v / 4096 % 16) + v / 256 % 16 = v / 256 % 256 := by omega
  have e3 : 16 * (v / 16 % 16) + v % 16 = v % 256 := by omega
  cases hrest : hexDecodeString rest with
  | error e =>
    simp only [toHex8, List.cons_append, List.append_eq, List.nil_append, hexDecodeString,
      h0, h1, h2, h3, h4, h5, h6, h7, hrest]
  | ok bs =>
    simp only [toHex8, List.cons_append, List.append_eq, List.nil_append, hexDecodeString,
      h0, h1, h2, h3, h4, h5, h6, h7, hrest, be4, e0, e1, e2, e3]

/-- **C6** (amended).  For every well-formed derivation path with *exactly
four* segments (each `/<digits>` with optional `h`/`H`/apostrophe marker,
numeric value `< 0x80000000`), the encoding is the hardcoded length byte `4`
— which for these paths equals the segment count — followed by exactly four
4-byte big-endian values, each with `0x80000000` added when the segment is
hardened. -/
theorem encodeBipPath_four_segments_layout (segs : List BipSeg)
    (hlen : segs.length = 4)
    (hwf : ∀ s ∈ segs, s.wf ∧ s.val < 2147483648) :
    encodeBipPath (renderPath segs) =
      .ok (4 :: (segs.map fun s => be4 s.encVal).flatten) ∧
    segs.length = 4 := by
  refine ⟨?_, hlen⟩
  have hdata : (renderPath segs).data = (segs.map renderSeg).flatten := rfl
  have hscan : matchSections (renderPath segs) = segs.map fun s => (s.digits, s.marker) := by
    unfold matchSections
    rw [hdata]
    exact findSections_render segs (fun s hs => (hwf s hs).1) _ 4 (by omega) (by omega)
  have hhex : ∀ ws : List Nat,
      hexDecodeString ((ws.map toHex8).flatten) = .ok ((ws.map be4).flatten) := by
    intro ws
    induction ws with
    | nil => rfl
    | cons w ws ihw =>
      simp only [List.map_cons, List.flatten_cons]
      rw [hexDecodeString_toHex8_append, ihw]
  unfold encodeBipPath
  rw [hscan, encodeSections_spec segs hwf ['0', '4']]
  have hmm1 : (segs.map fun s => toHex8 s.encVal).flatten =
      ((segs.map fun s => s.encVal).map toHex8).flatten := by
    rw [List.map_map]
    rfl
  have hmm2 : ((segs.map fun s => s.encVal).map be4).flatten =
      (segs.map fun s => be4 s.encVal).flatten := by
    rw [List.map_map]
    rfl
  show hexDecodeString (['0', '4'] ++ (segs.map fun s => toHex8 s.encVal).flatten) = _
  rw [hmm1]
  simp only [List.cons_append, List.append_eq, List.nil_append, hexDecodeString,
    show hexVal '0' = some 0 from rfl, show hexVal '4' = some 4 from rfl,
    hhex (segs.map fun s => s.encVal), hmm2]

/-- Witness for the amended **C6** at the standard Tezos baking path
`/44'/1729'/0'/0'` (rendered with `h` markers). -/
theorem encodeBipPath_four_segments_witness :
    encodeBipPath (renderPath
        [⟨['4', '4'], ['h']⟩, ⟨['1', '7', '2', '9'], ['h']⟩, ⟨['0'], ['h']⟩, ⟨['0'], ['h']⟩]) =
      .ok (4 :: (([⟨['4', '4'], ['h']⟩, ⟨['1', '7', '2', '9'], ['h']⟩, ⟨['0'], ['h']⟩,
        ⟨['0'], ['h']⟩] : List BipSeg).map fun s => be4 s.encVal).flatten) ∧
    ([⟨['4', '4'], ['h']⟩, ⟨['1', '7', '2', '9'], ['h']⟩, ⟨['0'], ['h']⟩,
      ⟨['0'], ['h']⟩] : List BipSeg).length = 4 :=
  encodeBipPath_four_segments_layout _ (by decide) (by decide)

/-! ## ledger-app-tezos.go: `SignBytes` and the channel blocking mode

`SignBytes` performs device I/O.  The embedding threads the transport state
explicitly and takes the outcome of each I/O step as an input trace — the
spec treats the transport as an external collaborator specified only at its
interface (`write`, `read`, `set_blocking`).  `DevState` records the session
state the claim is about: whether the HID channel is in non-blocking mode
(`Get` puts it there at connection time). -/

structure DevState where
  nonBlocking : Bool
  deriving DecidableEq, Repr

/-- Outcomes of the six I/O steps of one `SignBytes` call: whether each
`Write` succeeds, what each `Read` returns (`none` = error) and whether each
`SetNonBlocking` call succeeds (`false` models `r == -1`). -/
structure SignTrace where
  write1Ok : Bool
  read1 : Option (List Nat)
  setNB1Ok : Bool
  write2Ok : Bool
  read2 : Option (List Nat)
  setNB2Ok : Bool
  deriving DecidableEq, Repr

/-- `Dev.SetNonBlocking(b)`: on success the channel mode becomes `b`; on a
failed call (`r == -1`) the mode is modelled as unchanged. -/
def setNonBlocking (ok : Bool) (b : Bool) (st : DevState) : DevState × Bool :=
  if ok then ({ nonBlocking := b }, true) else (st, false)

/-- `SignBytes` from `ledger-app-tezos.go`, its I/O driven by a trace:
bip-path guard, first write/read round trip, switch to blocking mode
(`SetNonBlocking(false)`), second write/read round trip (the human-timescale
confirmation wait), switch back (`SetNonBlocking(true)`), then
base-58-check-encode the returned raw signature with the `edsig` prefix.
Returns the Go result paired with the final channel state. -/
def SignBytes (tr : SignTrace) (bipPath bytesToSign : List Nat) (st : DevState) :
    Except GoErr (List Nat) × DevState :=
  if bipPath.length = 0 then (.error (.msg "No BIP Path is set; Use SetBipPath()"), st)
  else if tr.write1Ok = false then (.error (.msg "Unable to sign bytes (1)"), st)
  else
    match tr.read1 with
    | none => (.error (.msg "Unable to read bytes signature (1)"), st)
    | some _ =>
      match setNonBlocking tr.setNB1Ok false st with
      | (st1, false) => (.error (.msg "Could not set non-blocking"), st1)
      | (st1, true) =>
        if tr.write2Ok = false then (.error (.msg "Unable to sign bytes (2)"), st1)
        else
          match tr.read2 with
          | none => (.error (.msg "Unable to read bytes signature"), st1)
          | some resp =>
            match setNonBlocking tr.setNB2Ok true st1 with
            | (st2, false) => (.error (.msg "Could not set non-blocking"), st2)
            | (st2, true) => (.ok (B58cencode resp edsigPrefix), st2)

/-- **C7** (counterexample).  After the switch to blocking mode succeeds, an
error from the second `Write` — and likewise from the second `Read` — makes
`SignBytes` return with the channel still in blocking mode: there is no
restore on those early-return paths (the restore call only runs after both
succeed). -/
theorem signBytes_error_leaves_blocking :
    (SignBytes ⟨true, some [1], true, false, none, true⟩ [4, 128, 0, 0, 44] [7]
        ⟨true⟩).1 = .error (.msg "Unable to sign bytes (2)") ∧
    (SignBytes ⟨true, some [1], true, false, none, true⟩ [4, 128, 0, 0, 44] [7]
        ⟨true⟩).2.nonBlocking = false ∧
    (SignBytes ⟨true, some [1], true, true, none, true⟩ [4, 128, 0, 0, 44] [7]
        ⟨true⟩).1 = .error (.msg "Unable to read bytes signature") ∧
    (SignBytes ⟨true, some [1], true, true, none, true⟩ [4, 128, 0, 0, 44] [7]
        ⟨true⟩).2.nonBlocking = false :=
  ⟨rfl, rfl, rfl, rfl⟩

/-- **C7** (amended).  Whenever `SignBytes` returns *successfully*, the
channel has been restored to non-blocking mode; error returns between the
switch to blocking mode and the restore call leave the channel blocking. -/
theorem signBytes_success_restores_nonblocking (tr : SignTrace)
    (bipPath bytesToSign : List Nat) (st : DevState) (v : List Nat)
    (h : (SignBytes tr bipPath bytesToSign st).1 = .ok v) :
    (SignBytes tr bipPath bytesToSign st).2.nonBlocking = true := by
  obtain ⟨w1, r1, s1, w2, r2, s2⟩ := tr
  by_cases hb : bipPath.length = 0 <;>
    cases w1 <;> cases r1 <;> cases s1 <;> cases w2 <;> cases r2 <;> cases s2 <;>
      simp_all [SignBytes, setNonBlocking]

/-- Witness for the amended **C7**: a fully successful trace starting from
blocking mode ends in non-blocking mode. -/
theorem signBytes_success_restores_witness :
    (SignBytes ⟨true, some [1], true, true, some [9], true⟩ [4] [7]
        ⟨false⟩).2.nonBlocking = true :=
  signBytes_success_restores_nonblocking ⟨true, some [1], true, true, some [9], true⟩
    [4] [7] ⟨false⟩ (B58cencode [9] edsigPrefix) (by rfl)

/-! ## The framing round trip (C3): wrap-side lemmas -/

theorem goSlice_nat (l : List Nat) (a b : Nat) (hab : a ≤ b) (hb : b ≤ l.length) :
    goSlice l (a : Int) (b : Int) = .ok ((l.drop a).take (b - a)) := by
  unfold goSlice
  rw [if_pos ⟨by positivity, by exact_mod_cast hab, by exact_mod_cast hb⟩]
  have h1 : ((a : Int)).toNat = a := by omega
  have h2 : ((b : Int) - (a : Int)).toNat = b - a := by omega
  rw [h1, h2]

theorem goIndex_nat (l : List Nat) (i : Nat) (hi : i < l.length) :
    goIndex l (i : Int) = .ok (l.getD i 0) := by
  unfold goIndex
  rw [if_pos ⟨by positivity, by exact_mod_cast hi⟩]
  have h1 : ((i : Int)).toNat = i := by omega
  rw [h1]

/-- Closed form of the continuation frames that `wrapLoop` emits starting
from a byte offset into the command. -/
def wrapTail (ch : List Nat) (ps : Int) (cmd : List Nat) : Nat → Nat → Nat → List Nat
  | 0, _, _ => []
  | fuel + 1, seq, offset =>
    if offset = cmd.length then []
    else
      ch ++ [5] ++ putUint16 seq ++
        ((cmd.drop offset).take (min (cmd.length - offset) (ps - 5).toNat) ++
          wrapTail ch ps cmd fuel (seq + 1)
            (offset + min (cmd.length - offset) (ps - 5).toNat))

/-- `wrapLoop` runs without error and appends exactly `wrapTail` to its
accumulator (packet sizes `≥ 8`). -/
theorem wrapLoop_spec (ch cmd : List Nat) (ps : Int) (hps : 8 ≤ ps) :
    ∀ fuel (offset : Nat) seq acc, offset ≤ cmd.length → cmd.length - offset < fuel →
      wrapLoop ch cmd ps fuel seq (offset : Int) acc =
        .ok (acc ++ wrapTail ch ps cmd fuel seq offset) := by
  intro fuel
  induction fuel with
  | zero => intro offset seq acc _ h; omega
  | succ f ih =>
    intro offset seq acc hoff hfuel
    by_cases heq : offset = cmd.length
    · subst heq
      simp [wrapLoop, wrapTail]
    · have hlt : offset < cmd.length := Nat.lt_of_le_of_ne hoff heq
      have hp5 : (((ps - 5).toNat : Int)) = ps - 5 := Int.toNat_of_nonneg (by omega)
      have hp5n : 3 ≤ (ps - 5).toNat := by omega
      obtain ⟨bs, hbs⟩ : ∃ bs, bs = min (cmd.length - offset) (ps - 5).toNat := ⟨_, rfl⟩
      have hbs1 : 1 ≤ bs := by
        rw [hbs]
        exact le_min (by omega) (by omega)
      have hbsub : bs ≤ cmd.length - offset := by
        rw [hbs]
        exact Nat.min_le_left _ _
      have hbsle : offset + bs ≤ cmd.length := by omega
      have hblock : (if (cmd.length : Int) - offset > ps - 3 - 2 then ps - 3 - 2
          else (cmd.length : Int) - offset) = (bs : Int) := by
        by_cases hc : (cmd.length : Int) - offset > ps - 3 - 2
        · rw [if_pos hc, hbs]
          rw [Nat.min_eq_right (by omega)]
          omega
        · rw [if_neg hc, hbs]
          rw [Nat.min_eq_left (by omega)]
          omega
      have hslice : goSlice cmd (offset : Int) ((offset : Int) + (bs : Int)) =
          .ok ((cmd.drop offset).take bs) := by
        have hc2 : ((offset : Int) + (bs : Int)) = ((offset + bs : Nat) : Int) := by
          push_cast
          ring
        rw [hc2, goSlice_nat cmd offset (offset + bs) (by omega) hbsle]
        have hsub : offset + bs - offset = bs := by omega
        rw [hsub]
      have hne : ¬ ((offset : Int) = (cmd.length : Int)) := by
        exact_mod_cast heq
      simp only [wrapLoop, if_neg hne, hblock, hslice]
      have hcast : (offset : Int) + (bs : Int) = ((offset + bs : Nat) : Int) := by
        push_cast
        ring
      rw [hcast, ih (offset + bs) (seq + 1) _ hbsle (by omega)]
      simp only [wrapTail, if_neg heq, ← hbs]
      simp [List.append_assoc]

/-- Each frame set emitted by `wrapTail` carries at least the remaining
command bytes. -/
theorem wrapTail_length_ge (ch : List Nat) (ps : Int) (cmd : List Nat) (hps : 8 ≤ ps) :
    ∀ fuel seq offset, offset ≤ cmd.length → cmd.length - offset < fuel →
      cmd.length - offset ≤ (wrapTail ch ps cmd fuel seq offset).length := by
  intro fuel
  induction fuel with
  | zero => intro seq offset _ h; omega
  | succ f ih =>
    intro seq offset hoff hfuel
    by_cases heq : offset = cmd.length
    · simp [wrapTail, heq]
    · have hlt : offset < cmd.length := Nat.lt_of_le_of_ne hoff heq
      have hp5 : (((ps - 5).toNat : Int)) = ps - 5 := Int.toNat_of_nonneg (by omega)
      have hp5n : 3 ≤ (ps - 5).toNat := by omega
      obtain ⟨bs, hbs⟩ : ∃ bs, bs = min (cmd.length - offset) (ps - 5).toNat := ⟨_, rfl⟩
      have hbs1 : 1 ≤ bs := by
        rw [hbs]
        exact le_min (by omega) (by omega)
      have hbsub : bs ≤ cmd.length - offset := by
        rw [hbs]
        exact Nat.min_le_left _ _
      have htake : ((cmd.drop offset).take bs).length = bs := by
        rw [List.length_take, List.length_drop]
        omega
      have hrec := ih (seq + 1) (offset + bs) (by omega) (by omega)
      simp only [wrapTail, if_neg heq, ← hbs, List.length_append, htake]
      omega

/-- Number of zero bytes the padding loop appends: the distance to the next
multiple of `ps`. -/
def neededPad (ps : Int) (n : Nat) : Nat := ((ps - (n : Int) % ps) % ps).toNat

theorem neededPad_of_zero (ps : Int) (n : Nat) (h : ((n : Int)) % ps = 0) :
    neededPad ps n = 0 := by
  unfold neededPad
  rw [h, Int.sub_zero, Int.emod_self]
  rfl

theorem neededPad_step (ps : Int) (hps : 3 ≤ ps) (n : Nat) (h : ((n : Int)) % ps ≠ 0) :
    neededPad ps n = neededPad ps (n + 1) + 1 := by
  have hpos : (0 : Int) < ps := by omega
  have hr0 : (0 : Int) ≤ (n : Int) % ps := Int.emod_nonneg _ (by omega)
  have hrlt : (n : Int) % ps < ps := Int.emod_lt_of_pos _ hpos
  have hr1 : 1 ≤ (n : Int) % ps := by
    rcases lt_or_le ((n : Int) % ps) 1 with hh | hh
    · exact absurd (by omega : (n : Int) % ps = 0) h
    · exact hh
  have hmod1 : ((n + 1 : Nat) : Int) % ps = ((n : Int) % ps + 1) % ps := by
    have h1p : (1 : Int) % ps = 1 := Int.emod_eq_of_lt (by omega) (by omega)
    push_cast
    conv_lhs => rw [Int.add_emod]
    rw [h1p]
  have hnp : neededPad ps n = (ps - (n : Int) % ps).toNat := by
    unfold neededPad
    rw [Int.emod_eq_of_lt (by omega) (by omega)]
  by_cases htop : (n : Int) % ps = ps - 1
  · have h1 : ((n + 1 : Nat) : Int) % ps = 0 := by
      rw [hmod1, htop]
      simp
    have h2 : neededPad ps (n + 1) = 0 := neededPad_of_zero ps (n + 1) h1
    rw [h2, hnp, htop, show ps - (ps - 1) = 1 from by ring]
    rfl
  · have h1 : ((n + 1 : Nat) : Int) % ps = (n : Int) % ps + 1 := by
      rw [hmod1, Int.emod_eq_of_lt (by omega) (by omega)]
    have h2 : neededPad ps (n + 1) = (ps - ((n : Int) % ps + 1)).toNat := by
      unfold neededPad
      rw [h1, Int.emod_eq_of_lt (by omega) (by omega)]
    rw [h2, hnp]
    omega

theorem padLoop_spec (ps : Int) (hps : 3 ≤ ps) :
    ∀ fuel res, neededPad ps res.length ≤ fuel →
      padLoop ps fuel res = res ++ List.replicate (neededPad ps res.length) 0 := by
  intro fuel
  induction fuel with
  | zero =>
    intro res h
    have h0 : neededPad ps res.length = 0 := Nat.le_zero.mp h
    rw [h0]
    simp [padLoop]
  | succ f ih =>
    intro res h
    by_cases hz : ((res.length : Int)) % ps = 0
    · rw [neededPad_of_zero ps _ hz]
      simp only [padLoop, if_pos hz]
      simp
    · have hstep := neededPad_step ps hps res.length hz
      have hlen1 : (res ++ [0]).length = res.length + 1 := by simp
      have hrec := ih (res ++ [0]) (by rw [hlen1]; omega)
      simp only [padLoop, if_neg hz, hrec, hlen1, hstep]
      rw [List.append_assoc]
      congr 1

theorem neededPad_mod (ps : Int) (hps : 3 ≤ ps) (n : Nat) :
    ((n + neededPad ps n : Nat) : Int) % ps = 0 ∧ ((neededPad ps n : Nat) : Int) < ps := by
  have hpos : (0 : Int) < ps := by omega
  have hr0 : (0 : Int) ≤ (n : Int) % ps := Int.emod_nonneg _ (by omega)
  have hrlt : (n : Int) % ps < ps := Int.emod_lt_of_pos _ hpos
  have hcast : ((neededPad ps n : Nat) : Int) = (ps - (n : Int) % ps) % ps := by
    unfold neededPad
    rw [Int.toNat_of_nonneg (Int.emod_nonneg _ (by omega))]
  constructor
  · by_cases hz : ((n : Int)) % ps = 0
    · rw [neededPad_of_zero ps n hz]
      push_cast
      simpa using hz
    · have h1 : (ps - (n : Int) % ps) % ps = ps - (n : Int) % ps := by
        have hr1 : 1 ≤ (n : Int) % ps := by
          rcases lt_or_le ((n : Int) % ps) 1 with hh | hh
          · exact absurd (by omega : (n : Int) % ps = 0) hz
          · exact hh
        rw [Int.emod_eq_of_lt (by omega) (by omega)]
      push_cast
      rw [hcast, h1, Int.add_emod, h1]
      have hsum : (n : Int) % ps + (ps - (n : Int) % ps) = ps := by ring
      rw [hsum, Int.emod_self]
  · rw [hcast]
    exact Int.emod_lt_of_pos _ hpos

theorem getD_pre (pre X : List Nat) : ∀ i : Nat, (pre ++ X).getD (pre.length + i) 0 = X.getD i 0 := by
  induction pre with
  | nil => intro i; simp
  | cons p pre ih =>
    intro i
    have : (p :: pre).length + i = (pre.length + i) + 1 := by simp [List.length_cons]; omega
    rw [this]
    simpa using ih i

theorem goSlice_pre (pre X : List Nat) (a b : Nat) (hab : a ≤ b) (hb : b ≤ X.length) :
    goSlice (pre ++ X) ((pre.length + a : Nat) : Int) ((pre.length + b : Nat) : Int) =
      .ok ((X.drop a).take (b - a)) := by
  rw [goSlice_nat _ _ _ (by omega) (by rw [List.length_append]; omega)]
  have h1 : (pre ++ X).drop (pre.length + a) = X.drop a := by
    rw [List.drop_append]
  rw [h1, show pre.length + b - (pre.length + a) = b - a from by omega]

theorem goIndex_pre (pre X : List Nat) (i : Nat) (hi : i < X.length) :
    goIndex (pre ++ X) ((pre.length + i : Nat) : Int) = .ok (X.getD i 0) := by
  rw [goIndex_nat _ _ (by rw [List.length_append]; omega), getD_pre]

/-- The reassembly loop of `unwrapResponseAPDU` inverts the continuation
frames of `wrapTail`: starting with `rem` command bytes still to collect, a
consumed prefix `pre` of the accumulated data, and trailing padding, it
reconstructs the whole command.  The sequence-counter invariant
`3·(t+1) + rem ≤ 3·65536` keeps the 16-bit wrap of the emitted sequence
numbers invisible. -/
theorem unwrapLoop_spec (c0 c1v : Nat) (cmd : List Nat) (ps : Int) (hps : 8 ≤ ps) :
    ∀ rem fuelU fuelW t : Nat, ∀ pre pad : List Nat,
      rem ≤ cmd.length → rem < fuelU → rem < fuelW →
      3 * (t + 1) + rem ≤ 196608 →
      unwrapLoop [c0, c1v]
          (pre ++ wrapTail [c0, c1v] ps cmd fuelW (t + 1) (cmd.length - rem) ++ pad) ps
          (cmd.length : Int) fuelU t (pre.length : Int) (cmd.take (cmd.length - rem)) =
        .ok cmd := by
  intro rem
  induction rem using Nat.strong_induction_on with
  | _ rem IH =>
    intro fuelU fuelW t pre pad hremL hfU hfW hinv
    rcases Nat.eq_zero_or_pos rem with hr0 | hrpos
    · subst hr0
      obtain ⟨fU, rfl⟩ : ∃ f, fuelU = f + 1 := ⟨fuelU - 1, by omega⟩
      rw [Nat.sub_zero, List.take_length]
      simp only [unwrapLoop]
      rw [if_neg (by omega : ¬ ((cmd.length : Int) < (cmd.length : Int)))]
    · obtain ⟨fU, rfl⟩ : ∃ f, fuelU = f + 1 := ⟨fuelU - 1, by omega⟩
      obtain ⟨fW, rfl⟩ : ∃ f, fuelW = f + 1 := ⟨fuelW - 1, by omega⟩
      have hoffL : cmd.length - rem < cmd.length := by omega
      have hLoff : cmd.length - (cmd.length - rem) = rem := by omega
      have hp5 : (((ps - 5).toNat : Int)) = ps - 5 := Int.toNat_of_nonneg (by omega)
      have hp5n : 3 ≤ (ps - 5).toNat := by omega
      obtain ⟨bs, hbs⟩ : ∃ bs, bs = min rem (ps - 5).toNat := ⟨_, rfl⟩
      have hbs1 : 1 ≤ bs := by
        rw [hbs]
        exact le_min (by omega) (by omega)
      have hbsub : bs ≤ rem := by
        rw [hbs]
        exact Nat.min_le_left _ _
      have hbsor : bs = rem ∨ 3 ≤ bs := by
        rcases Nat.le_total rem ((ps - 5).toNat) with hc | hc
        · left
          rw [hbs]
          exact Nat.min_eq_left hc
        · right
          rw [hbs, Nat.min_eq_right hc]
          omega
      have htW : wrapTail [c0, c1v] ps cmd (fW + 1) (t + 1) (cmd.length - rem) =
          [c0, c1v] ++ [5] ++ putUint16 (t + 1) ++
            ((cmd.drop (cmd.length - rem)).take bs ++
              wrapTail [c0, c1v] ps cmd fW (t + 2) ((cmd.length - rem) + bs)) := by
        simp only [wrapTail, if_neg (by omega : ¬ (cmd.length - rem = cmd.length)), hLoff, ← hbs]
      have hchunklen : ((cmd.drop (cmd.length - rem)).take bs).length = bs := by
        rw [List.length_take, List.length_drop, hLoff]
        omega
      -- the not-yet-consumed part of the data, with the frame laid out explicitly
      have hX : wrapTail [c0, c1v] ps cmd (fW + 1) (t + 1) (cmd.length - rem) ++ pad =
          c0 :: c1v :: 5 :: ((t + 1) % 65536 / 256) :: ((t + 1) % 256) ::
            ((cmd.drop (cmd.length - rem)).take bs ++
              (wrapTail [c0, c1v] ps cmd fW (t + 2) ((cmd.length - rem) + bs) ++ pad)) := by
        rw [htW]
        simp [putUint16, List.append_assoc]
      set X := c0 :: c1v :: 5 :: ((t + 1) % 65536 / 256) :: ((t + 1) % 256) ::
          ((cmd.drop (cmd.length - rem)).take bs ++
            (wrapTail [c0, c1v] ps cmd fW (t + 2) ((cmd.length - rem) + bs) ++ pad)) with hXdef
      have hdata : pre ++ wrapTail [c0, c1v] ps cmd (fW + 1) (t + 1) (cmd.length - rem) ++ pad =
          pre ++ X := by
        rw [List.append_assoc, hX]
      have hXlen : 5 + bs ≤ X.length := by
        rw [hXdef]
        simp only [List.length_cons, List.length_append, hchunklen]
        omega
      rw [hdata]
      -- the loop body
      have hreslen : (cmd.take (cmd.length - rem)).length = cmd.length - rem := by
        rw [List.length_take]
        omega
      have hcond : ((cmd.take (cmd.length - rem)).length : Int) < (cmd.length : Int) := by
        rw [hreslen]
        omega
      have hnoeof : ¬ ((pre.length : Int) = ((pre ++ X).length : Int)) := by
        rw [List.length_append]
        have : 0 < X.length := by omega
        push_cast
        omega
      have hsl1 : goSlice (pre ++ X) (pre.length : Int) ((pre.length : Int) + 2) =
          .ok [c0, c1v] := by
        have hc : (pre.length : Int) + 2 = ((pre.length + 2 : Nat) : Int) := by push_cast; ring
        have hc0 : (pre.length : Int) = ((pre.length + 0 : Nat) : Int) := by push_cast; ring
        rw [hc, hc0, goSlice_pre pre X 0 2 (by omega) (by omega)]
        rw [hXdef]
        rfl
      have htag : goIndex (pre ++ X) ((pre.length : Int) + 2) = .ok 5 := by
        have hc : (pre.length : Int) + 2 = ((pre.length + 2 : Nat) : Int) := by push_cast; ring
        rw [hc, goIndex_pre pre X 2 (by omega)]
        rw [hXdef]
        rfl
      have hseqs : goSlice (pre ++ X) ((pre.length : Int) + 3) ((pre.length : Int) + 5) =
          .ok [(t + 1) % 65536 / 256, (t + 1) % 256] := by
        have hc3 : (pre.length : Int) + 3 = ((pre.length + 3 : Nat) : Int) := by push_cast; ring
        have hc5 : (pre.length : Int) + 5 = ((pre.length + 5 : Nat) : Int) := by push_cast; ring
        rw [hc3, hc5, goSlice_pre pre X 3 5 (by omega) (by omega)]
        rw [hXdef]
        rfl
      have hseqv : readUint16 [(t + 1) % 65536 / 256, (t + 1) % 256] = t + 1 := by
        show 256 * ((t + 1) % 65536 / 256) + (t + 1) % 256 = t + 1
        omega
      have hblock : (if (cmd.length : Int) - ((cmd.take (cmd.length - rem)).length : Int) >
            ps - 3 - 2 then ps - 3 - 2
          else (cmd.length : Int) - ((cmd.take (cmd.length - rem)).length : Int)) =
          (bs : Int) := by
        rw [hreslen]
        have hrc : (cmd.length : Int) - ((cmd.length - rem : Nat) : Int) = (rem : Int) := by
          push_cast
          omega
        rw [hrc]
        by_cases hc : (rem : Int) > ps - 3 - 2
        · rw [if_pos hc, hbs, Nat.min_eq_right (by omega)]
          omega
        · rw [if_neg hc, hbs, Nat.min_eq_left (by omega)]
      have hchunk : goSlice (pre ++ X) ((pre.length : Int) + 5)
            ((pre.length : Int) + 5 + (bs : Int)) =
          .ok ((cmd.drop (cmd.length - rem)).take bs) := by
        have hc5 : (pre.length : Int) + 5 = ((pre.length + 5 : Nat) : Int) := by push_cast; ring
        have hc5b : (pre.length : Int) + 5 + (bs : Int) =
            ((pre.length + (5 + bs) : Nat) : Int) := by push_cast; ring
        rw [hc5b, hc5]
        rw [goSlice_pre pre X 5 (5 + bs) (by omega) hXlen]
        rw [hXdef]
        have hdrop : (c0 :: c1v :: 5 :: ((t + 1) % 65536 / 256) :: ((t + 1) % 256) ::
            ((cmd.drop (cmd.length - rem)).take bs ++
              (wrapTail [c0, c1v] ps cmd fW (t + 2) ((cmd.length - rem) + bs) ++ pad))).drop 5 =
            (cmd.drop (cmd.length - rem)).take bs ++
              (wrapTail [c0, c1v] ps cmd fW (t + 2) ((cmd.length - rem) + bs) ++ pad) := rfl
        rw [hdrop, show 5 + bs - 5 = bs from by omega,
          List.take_left' hchunklen]
      simp only [unwrapLoop, if_pos hcond, if_neg hnoeof, hsl1, htag, hseqs, hblock, hchunk]
      rw [if_neg (by simp : ¬ ([c0, c1v] ≠ [c0, c1v])), if_neg (by simp : ¬ ([(5 : Nat)] ≠ [5]))]
      rw [if_neg (by rw [hseqv]; omega :
        ¬ (readUint16 [(t + 1) % 65536 / 256, (t + 1) % 256] ≠ t + 1))]
      -- fold the new prefix and apply the induction hypothesis
      have htake : cmd.take (cmd.length - rem) ++ (cmd.drop (cmd.length - rem)).take bs =
          cmd.take ((cmd.length - rem) + bs) := (List.take_add cmd _ _).symm
      have hpre' : (pre.length : Int) + 5 + (bs : Int) =
          (((pre ++ (c0 :: c1v :: 5 :: ((t + 1) % 65536 / 256) :: ((t + 1) % 256) ::
            (cmd.drop (cmd.length - rem)).take bs)).length : Nat) : Int) := by
        simp only [List.length_append, List.length_cons, hchunklen]
        push_cast
        ring
      have hinv2 : 3 * ((t + 1) + 1) + (rem - bs) ≤ 196608 := by
        rcases hbsor with hb | hb
        · omega
        · omega
      have hoff2 : (cmd.length - rem) + bs = cmd.length - (rem - bs) := by omega
      have hassoc : pre ++ X =
          (pre ++ (c0 :: c1v :: 5 :: ((t + 1) % 65536 / 256) :: ((t + 1) % 256) ::
            (cmd.drop (cmd.length - rem)).take bs)) ++
            wrapTail [c0, c1v] ps cmd fW (t + 2) ((cmd.length - rem) + bs) ++ pad := by
        rw [hXdef]
        simp [List.append_assoc]
      rw [htake, hpre', hassoc, hoff2]
      exact IH (rem - bs) (by omega) fU fW (t + 1) _ pad (by omega) (by omega) (by omega) hinv2

set_option maxHeartbeats 1000000 in
/-- **C3** (amended).  For every 2-byte channel, every payload whose length
plus the 2-byte status word fits the 16-bit length field
(`payload.length ≤ 65533`), and every packet size `s ≥ 8` such that the
flattened wrapped output reaches the 12-byte minimum `unwrapResponseAPDU`
demands (`s ≥ 12`, or a command too long for one packet — this excludes only
`s ∈ {9, 10, 11}` with payloads of at most `s - 9` bytes), wrapping
`payload ‖ 0x9000` and unwrapping the concatenated packets returns exactly
the original payload. -/
theorem wrap_unwrap_roundtrip (c0 c1v : Nat) (payload : List Nat) (ps : Int)
    (hps : 8 ≤ ps) (hlen : payload.length ≤ 65533)
    (hexcl : 12 ≤ ps ∨ ps < (payload.length : Int) + 9) :
    (wrapCommandAPDU [c0, c1v] (payload ++ [144, 0]) ps) >>= (fun data =>
      unwrapResponseAPDU [c0, c1v] data ps) = .ok payload := by
  obtain ⟨cmd, hcmd⟩ : ∃ c, c = payload ++ [144, 0] := ⟨_, rfl⟩
  have hL : cmd.length = payload.length + 2 := by simp [hcmd]
  have hp7 : (((ps - 7).toNat : Int)) = ps - 7 := Int.toNat_of_nonneg (by omega)
  obtain ⟨cOne, hcOne⟩ : ∃ c, c = min cmd.length (ps - 7).toNat := ⟨_, rfl⟩
  have hc1le : cOne ≤ cmd.length := by
    rw [hcOne]
    exact Nat.min_le_left _ _
  have hblock1 : (if (cmd.length : Int) > ps - 5 - 2 then ps - 5 - 2
      else (cmd.length : Int)) = (cOne : Int) := by
    by_cases hc : (cmd.length : Int) > ps - 5 - 2
    · rw [if_pos hc, hcOne, Nat.min_eq_right (by omega)]
      omega
    · rw [if_neg hc, hcOne, Nat.min_eq_left (by omega)]
  have hslice1 : goSlice cmd 0 (0 + (cOne : Int)) = .ok (cmd.take cOne) := by
    have hz : (0 : Int) + (cOne : Int) = ((cOne : Nat) : Int) := by ring
    rw [hz]
    have h0 : goSlice cmd (((0 : Nat)) : Int) ((cOne : Nat) : Int) =
        .ok ((cmd.drop 0).take (cOne - 0)) := goSlice_nat cmd 0 cOne (by omega) hc1le
    simpa using h0
  have hwl := wrapLoop_spec [c0, c1v] cmd ps hps (cmd.length + 1) cOne 1
    ([c0, c1v] ++ [5] ++ putUint16 0 ++ putUint16 cmd.length ++ cmd.take cOne)
    hc1le (by omega)
  have hwrap : wrapCommandAPDU [c0, c1v] cmd ps =
      .ok (padLoop ps ps.toNat
        (([c0, c1v] ++ [5] ++ putUint16 0 ++ putUint16 cmd.length ++ cmd.take cOne) ++
          wrapTail [c0, c1v] ps cmd (cmd.length + 1) 1 cOne)) := by
    simp only [wrapCommandAPDU]
    rw [if_neg (by omega : ¬ ps < 3), hblock1, hslice1]
    have hz : (0 : Int) + (cOne : Int) = ((cOne : Nat) : Int) := by ring
    rw [hz]
    simp only [hwl]
  obtain ⟨U, hU⟩ : ∃ u, u =
      ([c0, c1v] ++ [5] ++ putUint16 0 ++ putUint16 cmd.length ++ cmd.take cOne) ++
        wrapTail [c0, c1v] ps cmd (cmd.length + 1) 1 cOne := ⟨_, rfl⟩
  have htklen : (cmd.take cOne).length = cOne := by
    rw [List.length_take]
    omega
  have hWlen : cmd.length - cOne ≤ (wrapTail [c0, c1v] ps cmd (cmd.length + 1) 1 cOne).length :=
    wrapTail_length_ge [c0, c1v] ps cmd hps (cmd.length + 1) 1 cOne hc1le (by omega)
  have hUlen : U.length =
      7 + cOne + (wrapTail [c0, c1v] ps cmd (cmd.length + 1) 1 cOne).length := by
    rw [hU]
    simp only [List.length_append, putUint16, List.length_cons, htklen]
    simp

  have hU7L : 7 + cmd.length ≤ U.length := by omega
  obtain ⟨k, hk⟩ : ∃ k, k = neededPad ps U.length := ⟨_, rfl⟩
  have hpad := padLoop_spec ps (by omega) ps.toNat U
    (by
      have := (neededPad_mod ps (by omega) U.length).2
      omega)
  rw [← hk] at hpad
  have hmod := (neededPad_mod ps (by omega) U.length).1
  rw [← hk] at hmod
  obtain ⟨data, hdata⟩ : ∃ d, d = U ++ List.replicate k 0 := ⟨_, rfl⟩
  have hdlen : data.length = U.length + k := by
    rw [hdata]
    simp
  have hd12 : 12 ≤ data.length := by
    have hdvd : ps ∣ ((data.length : Nat) : Int) := by
      apply Int.dvd_of_emod_eq_zero
      rw [hdlen]
      exact_mod_cast hmod
    have hdpos : (0 : Int) < ((data.length : Nat) : Int) := by
      have : 9 ≤ data.length := by omega
      push_cast
      omega
    rcases hexcl with hcase | hcase
    · have hge := Int.le_of_dvd hdpos hdvd
      omega
    · -- command does not fit the first packet: at least two packets exist
      have hgt : (cmd.length : Int) > ps - 7 := by
        push_cast [hL]
        omega
      have hc1' : cOne = (ps - 7).toNat := by
        rw [hcOne]
        exact Nat.min_eq_right (by omega)
      have hU1 : (ps : Int) + 1 ≤ (U.length : Int) := by
        have h1 : 1 ≤ cmd.length - cOne := by
          have : cOne < cmd.length := by omega
          omega
        have h2 : ((U.length : Nat) : Int) =
            7 + (cOne : Int) +
              ((wrapTail [c0, c1v] ps cmd (cmd.length + 1) 1 cOne).length : Int) := by
          rw [hUlen]
          push_cast
          ring
        have h3 : ((cmd.length - cOne : Nat) : Int) ≤
            ((wrapTail [c0, c1v] ps cmd (cmd.length + 1) 1 cOne).length : Int) := by
          exact_mod_cast hWlen
        have h4 : ((cOne : Nat) : Int) = ps - 7 := by
          rw [hc1']
          exact hp7
        push_cast at h2 h3 ⊢
        omega
      obtain ⟨m, hm⟩ := hdvd
      have hm2 : 2 ≤ m := by
        have hm1 : 1 ≤ m := by nlinarith
        by_contra hcon
        push_neg at hcon
        have hm1' : m = 1 := by omega
        rw [hm1', Int.mul_one] at hm
        omega
      have h2ps : 2 * ps ≤ ((data.length : Nat) : Int) := by
        rw [hm]
        nlinarith
      omega
  have hshape : data = [c0, c1v, 5, 0, 0, cmd.length % 65536 / 256, cmd.length % 256] ++
      (cmd.take cOne ++ (wrapTail [c0, c1v] ps cmd (cmd.length + 1) 1 cOne ++
        List.replicate k 0)) := by
    rw [hdata, hU]
    simp [putUint16, List.append_assoc]
  have hu1 : goSlice data 0 2 = .ok [c0, c1v] := by
    have h := goSlice_nat data 0 2 (by omega) (by omega)
    norm_num at h
    rw [h, hshape]
    rfl
  have hu2 : goIndex data 2 = .ok 5 := by
    have h := goIndex_nat data 2 (by omega)
    norm_num at h
    rw [h, hshape]
    rfl
  have hu3 : goSlice data 3 5 = .ok [0, 0] := by
    have h := goSlice_nat data 3 5 (by omega) (by omega)
    norm_num at h
    rw [h, hshape]
    rfl
  have hu4 : goSlice data 5 7 = .ok [cmd.length % 65536 / 256, cmd.length % 256] := by
    have h := goSlice_nat data 5 7 (by omega) (by omega)
    norm_num at h
    rw [h, hshape]
    rfl
  have hrl : readUint16 [cmd.length % 65536 / 256, cmd.length % 256] = cmd.length := by
    show 256 * (cmd.length % 65536 / 256) + cmd.length % 256 = cmd.length
    omega
  have hnomore : ¬ ((data.length : Int) < 5 + 2 + ((cmd.length : Nat) : Int)) := by
    push_cast
    omega
  have hres0 : goSlice data 7 (7 + (cOne : Int)) = .ok (cmd.take cOne) := by
    have h := goSlice_nat data 7 (7 + cOne) (by omega) (by omega)
    push_cast at h
    norm_num at h
    rw [h, hshape]
    have hdrop7 : ([c0, c1v, 5, 0, 0, cmd.length % 65536 / 256, cmd.length % 256] ++
        (cmd.take cOne ++ (wrapTail [c0, c1v] ps cmd (cmd.length + 1) 1 cOne ++
          List.replicate k 0))).drop 7 =
        cmd.take cOne ++ (wrapTail [c0, c1v] ps cmd (cmd.length + 1) 1 cOne ++
          List.replicate k 0) := rfl
    rw [hdrop7, List.take_left' htklen]
  obtain ⟨pre0, hpre0⟩ : ∃ p, p = [c0, c1v, 5, 0, 0, cmd.length % 65536 / 256,
      cmd.length % 256] ++ cmd.take cOne := ⟨_, rfl⟩
  have hpre0len : pre0.length = 7 + cOne := by
    rw [hpre0]
    simp [htklen]
    omega
  have hc1eq : cmd.length - (cmd.length - cOne) = cOne := by omega
  have hloop := unwrapLoop_spec c0 c1v cmd ps hps (cmd.length - cOne) (cmd.length + 1)
    (cmd.length + 1) 0 pre0 (List.replicate k 0) (by omega) (by omega) (by omega) (by omega)
  rw [hc1eq, Nat.zero_add] at hloop
  have hdata2 : data = pre0 ++ wrapTail [c0, c1v] ps cmd (cmd.length + 1) 1 cOne ++
      List.replicate k 0 := by
    rw [hshape, hpre0]
    simp [List.append_assoc]
  have hoffeq : (7 : Int) + (cOne : Int) = ((pre0.length : Nat) : Int) := by
    rw [hpre0len]
    push_cast
    ring
  have hswo : (cmd.length : Int) - 2 = ((payload.length : Nat) : Int) := by
    rw [hL]
    push_cast
    ring
  have hsw1 : goIndex cmd ((cmd.length : Int) - 2) = .ok 144 := by
    rw [hswo, goIndex_nat cmd payload.length (by omega)]
    have h := getD_pre payload [144, 0] 0
    rw [Nat.add_zero] at h
    rw [hcmd, h]
    rfl
  have hsw2 : goIndex cmd ((cmd.length : Int) - 2 + 1) = .ok 0 := by
    have hc : (cmd.length : Int) - 2 + 1 = ((payload.length + 1 : Nat) : Int) := by
      rw [hL]
      push_cast
      ring
    rw [hc, goIndex_nat cmd (payload.length + 1) (by omega), hcmd, getD_pre payload [144, 0] 1]
    rfl
  have hcf : checkFailure (256 * 144 + 0) = none := rfl
  have hfinal : goSlice cmd 0 ((cmd.length : Int) - 2) = .ok payload := by
    rw [hswo]
    have h := goSlice_nat cmd 0 payload.length (by omega) (by omega)
    norm_num at h
    rw [h, hcmd, List.take_left' rfl]
  -- assemble
  rw [← hcmd, hwrap]
  show unwrapResponseAPDU [c0, c1v]
      (padLoop ps ps.toNat (([c0, c1v] ++ [5] ++ putUint16 0 ++ putUint16 cmd.length ++
        cmd.take cOne) ++ wrapTail [c0, c1v] ps cmd (cmd.length + 1) 1 cOne)) ps = .ok payload
  rw [← hU, hpad, ← hdata]
  simp only [unwrapResponseAPDU]
  rw [if_neg (by push_cast; omega)]
  simp only [hu1, hu2, hu3, hu4]
  rw [if_neg (by simp : ¬ ([c0, c1v] ≠ [c0, c1v])), if_neg (by simp : ¬ ([(5 : Nat)] ≠ [5]))]
  rw [if_neg (by decide : ¬ (readUint16 [0, 0] ≠ 0)), hrl]
  rw [if_neg hnomore, hblock1]
  simp only [hres0]
  have hftoNat : (((cmd.length : Nat) : Int)).toNat = cmd.length := by omega
  rw [hftoNat, hoffeq, hdata2, hloop]
  simp only [hsw1, hsw2, hcf]
  exact hfinal

/-- Closed witness for the amended C3 round trip: channel `[1,1]`, payload
`[1,2,3]`, packet size 64 (both hypotheses hold and the round trip is
exercised at a concrete input). -/
theorem wrap_unwrap_roundtrip_witness :
    ([1, 2, 3] : List Nat).length ≤ 65533 ∧
      (12 ≤ (64 : Int) ∨ (64 : Int) < (([1, 2, 3] : List Nat).length : Int) + 9) ∧
      (wrapCommandAPDU [1, 1] ([1, 2, 3] ++ [144, 0]) 64) >>= (fun data =>
        unwrapResponseAPDU [1, 1] data 64) = .ok [1, 2, 3] :=
  ⟨by decide, Or.inl (by decide),
    wrap_unwrap_roundtrip 1 1 [1, 2, 3] 64 (by decide) (by decide)
      (Or.inl (by decide))⟩
